import Mathlib

/-!
Shallow embedding of the `levelcache` two-tier cache (ericuni/levelcache).

The engine under verification is the `[]byte`-valued implementation
(`cacheImpl`): `MGet` / `MSet` / `mGetFromLRUCache` / `mGetFromRedisCache` /
`mSetLRUCache` / `mSetRedisCache` / `compress` / `decompress` / `substract` /
`mkRedisKey`, together with `NewCache` construction-time validation from
`cache.go` / `options.go`.

Modelling conventions:
- byte strings are `List Nat`; time is `Int` nanoseconds (Go `time.Duration`
  and `time.Time.UnixNano`); `time.Now().Unix()` is `now / 1000000000`.
- a value physically stored in a tier is a `Blob`: either the bytes of a
  proto-marshaled `Data` message (constructor `Blob.bytesOf`) or bytes on
  which `proto.Unmarshal` fails / a non-`[]byte` cache entry (constructor
  `Blob.corrupt`).  Proto3 marshaling produces the empty byte string exactly
  for the all-default message, so `bytes.Equal(bs, missBytes)` on a stored
  blob is `Blob.isMissBytes`: true for `bytesOf zeroData`, false otherwise.
- the external snappy codec (an out-of-scope collaborator, used only through
  `compress`/`decompress`) is modeled as an executable length-prefix codec
  with the encode/decode round-trip property and inputs on which decoding
  fails.
- the ccache local store keeps an item past its TTL until overwritten or
  evicted; `Get` returns such items and `Item.Expired()` is
  `expiresAt < now`.  The redis store physically drops a key once its TTL
  passed: a read at `now` sees an entry only while `now < expiresAt`.
- the caller-supplied loader and the success of the redis write pipeline are
  an environment `Env` passed to each call; a failed `pipe.Exec` on the
  write path reports an error and its partial effects are not modeled (no
  claim reads the remote store after a failed write pipeline).
- the result `validsMap` only ever receives `true` in the source, so it is
  modeled as `String → Bool` (Go map lookup of an absent key yields false).
- `MGetResult.redisKeys` / `MGetResult.loaderKeys` record which keys were
  sent to the remote batched get and to the loader, for the claims about a
  tier not being invoked for a key.
-/

namespace Levelcache

abbrev Bytes := List Nat

inductive CompressionType
  | none
  | snappy
  | other (tag : Nat)
deriving DecidableEq

/-- Wire record `Data` (generated proto message): raw payload, write
timestamp in seconds (`ModifyTime`), compression tag. -/
structure Data where
  raw : Bytes
  modifyTime : Int
  compressionType : CompressionType
deriving DecidableEq

/-- The all-default proto message, whose marshaling is the empty byte
string `missBytes`. -/
def zeroData : Data := ⟨[], 0, CompressionType.none⟩

/-- A byte string stored in a tier, as seen by the engine. -/
inductive Blob
  | bytesOf (d : Data)
  | corrupt
deriving DecidableEq

/-- Go `bytes.Equal(bs, missBytes)` on a stored blob. -/
def Blob.isMissBytes : Blob → Bool
  | .bytesOf d => d = zeroData
  | .corrupt => false

/-- External snappy codec, modeled as a length-prefix code (round-trips, and
rejects ill-formed input). -/
def snappyEncode (bs : Bytes) : Bytes := bs.length :: bs

/-- Decoder of the modeled snappy codec; `Option.none` is a decode error. -/
def snappyDecode : Bytes → Option Bytes
  | [] => Option.none
  | n :: rest => if rest.length = n then some rest else Option.none

/-- Source `compress`: the unknown-tag default case returns the input
unchanged. -/
def compress : CompressionType → Bytes → Bytes
  | CompressionType.none, bs => bs
  | CompressionType.snappy, bs => snappyEncode bs
  | CompressionType.other _, bs => bs

/-- Source `decompress`: `Option.none` models a returned error (snappy
decode failure, or the unknown-tag default case). -/
def decompress : CompressionType → Bytes → Option Bytes
  | CompressionType.none, bs => some bs
  | CompressionType.snappy, bs => snappyDecode bs
  | CompressionType.other _, _ => Option.none

/-- Go pattern `raw, err := decompress(...)` where `raw` is used even when
`err != nil` (it is then the nil slice, here `[]`). -/
def decompressOrNil (ct : CompressionType) (bs : Bytes) : Bytes :=
  (decompress ct bs).getD []

/-- `time.Millisecond` in nanoseconds. -/
def millisecond : Int := 1000000

/-- `LRUCacheOptions`: size, fresh TTL (`Timeout`), negative-cache TTL
(`MissTimeout`). -/
structure LRUCacheOptions where
  size : Int
  timeout : Int
  missTimeout : Int
deriving DecidableEq

/-- `RedisCacheOptions`; `clientPresent` models `Client != nil` and `pfx`
models the `Prefix` field. -/
structure RedisCacheOptions where
  clientPresent : Bool
  pfx : String
  hardTimeout : Int
  softTimeout : Int
  missTimeout : Int
deriving DecidableEq

/-- `Options`; `loaderPresent` models `Loader != nil` (the loader function
itself lives in `Env`). -/
structure Options where
  lruCacheOptions : Option LRUCacheOptions
  redisCacheOptions : Option RedisCacheOptions
  loaderPresent : Bool
  compressionType : CompressionType
deriving DecidableEq

/-- `LRUCacheOptions.isValid` (nil receiver allowed). -/
def lruOptionsIsValid : Option LRUCacheOptions → Option String
  | Option.none => Option.none
  | some o =>
    if o.size ≤ 0 then some "lrucache size invalid"
    else if o.missTimeout ≠ 0 ∧ o.missTimeout < millisecond then
      some "lrucache miss timeout at least 1ms"
    else if o.timeout ≤ 0 ∨ (o.missTimeout ≠ 0 ∧ o.timeout ≤ o.missTimeout) then
      some "lrucache timeout invalid"
    else Option.none

/-- `RedisCacheOptions.isValid` (nil receiver allowed). -/
def redisOptionsIsValid : Option RedisCacheOptions → Option String
  | Option.none => Option.none
  | some o =>
    if o.clientPresent = false then some "redis client invalid"
    else if o.pfx = "" then some "rediscache prefix invalid"
    else if o.missTimeout ≠ 0 ∧ o.missTimeout < millisecond then
      some "rediscache miss timeout at least 1ms"
    else Option.none

/-- `Options.isValid` (nil receiver allowed: Go pointer method). -/
def optionsIsValid : Option Options → Option String
  | Option.none => some "options nil"
  | some o =>
    if o.lruCacheOptions = Option.none ∧ o.redisCacheOptions = Option.none then
      some "both lrucache and rediscache options nil"
    else
      match lruOptionsIsValid o.lruCacheOptions with
      | some e => some e
      | Option.none =>
        match redisOptionsIsValid o.redisCacheOptions with
        | some e => some e
        | Option.none => Option.none

/-- `NewCache` panics exactly when the name is empty or `options.isValid()`
returns an error. -/
def newCachePanics (name : String) (options : Option Options) : Bool :=
  decide (name = "") || (optionsIsValid options).isSome

/-- ccache item: stored blob plus absolute expiry (`now + ttl` at set
time); `Expired()` is `expiresAt < now` and expired items remain readable. -/
structure LruItem where
  value : Blob
  expiresAt : Int
deriving DecidableEq

def LruItem.expired (item : LruItem) (now : Int) : Bool :=
  decide (item.expiresAt < now)

/-- Redis entry: stored blob plus absolute expiry; the key is physically
gone once `expiresAt ≤ now`. -/
structure RedisEntry where
  value : Blob
  expiresAt : Int
deriving DecidableEq

structure CacheState where
  lru : String → Option LruItem
  redis : String → Option RedisEntry

/-- Point update of a total map. -/
def upd {α : Type} (m : String → α) (k : String) (v : α) : String → α :=
  fun q => if q = k then v else m q

/-- `mkRedisKey`: the remote tier namespaces keys as `prefix + "_" + key`. -/
def mkRedisKey (opts : Options) (key : String) : String :=
  match opts.redisCacheOptions with
  | some o => o.pfx ++ "_" ++ key
  | Option.none => key

/-- A redis `GET` at time `now`: an entry is visible only until its hard
TTL; an absent key (or per-key transport error) is `Option.none`. -/
def redisLookup (redis : String → Option RedisEntry) (now : Int) (rkey : String) :
    Option Blob :=
  match redis rkey with
  | some e => if now < e.expiresAt then some e.value else Option.none
  | Option.none => Option.none

/-- One iteration of the `mGetFromLRUCache` loop: classify `key` against
the local store, update the result maps, and report whether the key is
appended to `missKeys`. -/
def lruStep (lru : String → Option LruItem) (now : Int) (key : String)
    (values : String → Option Bytes) (valids : String → Bool) :
    ((String → Option Bytes) × (String → Bool)) × Bool :=
  match lru key with
  | Option.none => ((values, valids), true)
  | some item =>
    match item.value with
    | Blob.corrupt => ((values, valids), true)
    | Blob.bytesOf d =>
      if d = zeroData then
        ((values, valids), item.expired now)
      else
        let values1 := upd values key (some d.raw)
        if item.expired now then ((values1, valids), true)
        else ((values1, upd valids key true), false)

/-- The `mGetFromLRUCache` loop over the requested keys. -/
def mGetLRUGo (lru : String → Option LruItem) (now : Int) :
    List String → (String → Option Bytes) → (String → Bool) →
    (String → Option Bytes) × (String → Bool) × List String
  | [], values, valids => (values, valids, [])
  | key :: rest, values, valids =>
    let s := lruStep lru now key values valids
    let r := mGetLRUGo lru now rest s.1.1 s.1.2
    (r.1, r.2.1, if s.2 then key :: r.2.2 else r.2.2)

/-- `mGetFromLRUCache`: returns the updated maps and the keys carried to
the next tier (all keys when the local tier is absent or none requested). -/
def mGetFromLRUCache (opts : Options) (lru : String → Option LruItem) (now : Int)
    (keys : List String) (values : String → Option Bytes) (valids : String → Bool) :
    (String → Option Bytes) × (String → Bool) × List String :=
  match opts.lruCacheOptions with
  | Option.none => (values, valids, keys)
  | some _ =>
    if keys = [] then (values, valids, keys)
    else mGetLRUGo lru now keys values valids

/-- One iteration of the `mGetFromRedisCache` loop: classify `key` against
the remote store, update the result maps, and report whether the key is
appended to `missKeys`. -/
def redisStep (opts : Options) (ro : RedisCacheOptions)
    (redis : String → Option RedisEntry) (now : Int) (key : String)
    (values : String → Option Bytes) (valids : String → Bool) :
    ((String → Option Bytes) × (String → Bool)) × Bool :=
  match redisLookup redis now (mkRedisKey opts key) with
  | Option.none => ((values, valids), true)
  | some blob =>
    match blob with
    | Blob.corrupt => ((values, valids), true)
    | Blob.bytesOf d =>
      if d = zeroData then ((values, valids), false)
      else
        let raw := decompressOrNil d.compressionType d.raw
        if now - d.modifyTime * 1000000000 ≤ ro.softTimeout then
          ((upd values key (some raw), upd valids key true), false)
        else
          ((if (values key).isNone then upd values key (some raw) else values,
            valids), true)

/-- The `mGetFromRedisCache` loop over the carried keys. -/
def mGetRedisGo (opts : Options) (ro : RedisCacheOptions)
    (redis : String → Option RedisEntry) (now : Int) :
    List String → (String → Option Bytes) → (String → Bool) →
    (String → Option Bytes) × (String → Bool) × List String
  | [], values, valids => (values, valids, [])
  | key :: rest, values, valids =>
    let s := redisStep opts ro redis now key values valids
    let r := mGetRedisGo opts ro redis now rest s.1.1 s.1.2
    (r.1, r.2.1, if s.2 then key :: r.2.2 else r.2.2)

/-- `mGetFromRedisCache`: returns the updated maps and the keys carried to
the loader (all keys when the remote tier is absent or none requested). -/
def mGetFromRedisCache (opts : Options) (redis : String → Option RedisEntry)
    (now : Int) (keys : List String) (values : String → Option Bytes)
    (valids : String → Bool) :
    (String → Option Bytes) × (String → Bool) × List String :=
  match opts.redisCacheOptions with
  | Option.none => (values, valids, keys)
  | some ro =>
    if keys = [] then (values, valids, keys)
    else mGetRedisGo opts ro redis now keys values valids

/-- `substract(x, y)`: elements of `x` not in `y`, in order. -/
def substract (x y : List String) : List String :=
  x.filter (fun e => !(y.contains e))

/-- `mSetLRUCache`: fresh records are stored with `ModifyTime = now` in
seconds, compression `None`, TTL `Timeout`; miss keys get the empty miss
marker with TTL `MissTimeout` unless `MissTimeout == 0`. -/
def mSetLRUCache (opts : Options) (lru : String → Option LruItem) (now : Int)
    (kvs : List (String × Bytes)) (missKeys : List String) :
    String → Option LruItem :=
  match opts.lruCacheOptions with
  | Option.none => lru
  | some o =>
    let nowSec := now / 1000000000
    let lru1 := kvs.foldl
      (fun s kv => upd s kv.1
        (some ⟨Blob.bytesOf ⟨kv.2, nowSec, CompressionType.none⟩, now + o.timeout⟩))
      lru
    if o.missTimeout = 0 then lru1
    else missKeys.foldl
      (fun s k => upd s k (some ⟨Blob.bytesOf zeroData, now + o.missTimeout⟩))
      lru1

/-- `mSetRedisCache`: fresh records are stored compressed under the
configured mode with TTL `HardTimeout`; miss markers with TTL `MissTimeout`
only when `MissTimeout >= time.Millisecond`.  A failed `pipe.Exec` reports
an error (partial pipeline effects are not modeled). -/
def mSetRedisCache (opts : Options) (redisSetOk : Bool)
    (redis : String → Option RedisEntry) (now : Int)
    (kvs : List (String × Bytes)) (missKeys : List String) :
    (String → Option RedisEntry) × Bool :=
  match opts.redisCacheOptions with
  | Option.none => (redis, false)
  | some o =>
    let nowSec := now / 1000000000
    let redis1 := kvs.foldl
      (fun s kv => upd s (mkRedisKey opts kv.1)
        (some ⟨Blob.bytesOf
          ⟨compress opts.compressionType kv.2, nowSec, opts.compressionType⟩,
          now + o.hardTimeout⟩))
      redis
    let redis2 :=
      if millisecond ≤ o.missTimeout then
        missKeys.foldl
          (fun s k => upd s (mkRedisKey opts k)
            (some ⟨Blob.bytesOf zeroData, now + o.missTimeout⟩))
          redis1
      else redis1
    if redisSetOk then (redis2, false) else (redis, true)

/-- `mSet`: write both tiers (local first); the remote error, if any, is the
call's error. -/
def mSet (opts : Options) (redisSetOk : Bool) (st : CacheState) (now : Int)
    (kvs : List (String × Bytes)) (missKeys : List String) : CacheState × Bool :=
  if kvs = [] ∧ missKeys = [] then (st, false)
  else
    let lru1 := mSetLRUCache opts st.lru now kvs missKeys
    let r := mSetRedisCache opts redisSetOk st.redis now kvs missKeys
    (⟨lru1, r.1⟩, r.2)

/-- Public `MSet`: the explicit warm path, `mSet` with no miss keys. -/
def MSet (opts : Options) (redisSetOk : Bool) (st : CacheState) (now : Int)
    (kvs : List (String × Bytes)) : CacheState × Bool :=
  mSet opts redisSetOk st now kvs []

/-- Result of one loader call: the returned map (as a lookup function plus
its key list, for iteration order) and the returned error. -/
structure LoaderReply where
  values : String → Option Bytes
  dom : List String
  err : Bool

/-- Per-call environment: the loader behavior and whether the redis write
pipeline succeeds. -/
structure Env where
  loader : List String → LoaderReply
  redisSetOk : Bool

/-- A loader that only ever returns entries for keys it was asked for (the
documented loader contract). -/
def properLoader (env : Env) : Prop :=
  ∀ ks k, k ∉ ks → ((env.loader ks).values k) = Option.none

structure MGetResult where
  values : String → Option Bytes
  valids : String → Bool
  errored : Bool
  state : CacheState
  redisKeys : List String
  loaderKeys : List String

/-- Loader fill and write-back: the tail of `MGet` after the two cache
passes (source lines from the `if len(redisMissKeys) == 0` early return to
the final return). -/
def mgetLoaderFill (opts : Options) (env : Env) (st1 : CacheState) (now : Int)
    (values2 : String → Option Bytes) (valids2 : String → Bool)
    (redisKeys redisMissKeys : List String) : MGetResult :=
  if redisMissKeys = [] then ⟨values2, valids2, false, st1, redisKeys, []⟩
  else if opts.loaderPresent = false then
    ⟨values2, valids2, false, st1, redisKeys, []⟩
  else
    let reply := env.loader redisMissKeys
    let values3 := fun k =>
      match reply.values k with
      | some v => some v
      | Option.none => values2 k
    let valids3 := fun k => if (reply.values k).isSome then true else valids2 k
    if reply.err then ⟨values3, valids3, true, st1, redisKeys, redisMissKeys⟩
    else
      let loaderMissKeys := redisMissKeys.filter (fun k => (reply.values k).isNone)
      let kvs := reply.dom.filterMap
        (fun k => (reply.values k).map (fun v => (k, v)))
      let t3 := mSet opts env.redisSetOk st1 now kvs loaderMissKeys
      ⟨values3, valids3, t3.2, t3.1, redisKeys, redisMissKeys⟩

/-- Remote pass plus the redis→LRU warm-back of the redis hit keys (source
lines from the `mGetFromRedisCache` call through `mSetLRUCache(redisValues,
emptyKeys)`), followed by the loader fill. -/
def mgetRemotePass (opts : Options) (env : Env) (st : CacheState) (now : Int)
    (values1 : String → Option Bytes) (valids1 : String → Bool)
    (lruMissKeys : List String) : MGetResult :=
  let t2 := mGetFromRedisCache opts st.redis now lruMissKeys values1 valids1
  let values2 := t2.1
  let valids2 := t2.2.1
  let redisMissKeys := t2.2.2
  let redisKeys := if opts.redisCacheOptions.isSome then lruMissKeys else []
  let redisHitKeys := substract lruMissKeys redisMissKeys
  let st1 :=
    if redisHitKeys = [] then st
    else
      let redisValues := redisHitKeys.filterMap
        (fun k => (values2 k).map (fun v => (k, v)))
      let emptyKeys := redisHitKeys.filter (fun k => (values2 k).isNone)
      ⟨mSetLRUCache opts st.lru now redisValues emptyKeys, st.redis⟩
  mgetLoaderFill opts env st1 now values2 valids2 redisKeys redisMissKeys

/-- `MGet`, assembled exactly as in the source: local pass (early return
when nothing is carried), then the remote pass / warm-back / loader fill /
write-back. -/
def MGet (opts : Options) (env : Env) (st : CacheState) (now : Int)
    (keys : List String) : MGetResult :=
  if keys = [] then
    ⟨fun _ => Option.none, fun _ => false, false, st, [], []⟩
  else
    let t1 := mGetFromLRUCache opts st.lru now keys
      (fun _ => Option.none) (fun _ => false)
    if t1.2.2 = [] then ⟨t1.1, t1.2.1, false, st, [], []⟩
    else mgetRemotePass opts env st now t1.1 t1.2.1 t1.2.2

/-! ### Classification predicates over the stores (read-side case split of
the two get loops) -/

/-- The local pass writes nothing into the result maps for `q`: the key is
absent, holds a non-`[]byte`/undecodable entry, or holds the miss marker. -/
def lruNoWriteAt (lru : String → Option LruItem) (q : String) : Prop :=
  lru q = Option.none ∨
    ∃ item, lru q = some item ∧
      (item.value = Blob.corrupt ∨ item.value = Blob.bytesOf zeroData)

/-- The local pass carries `q` to the next tier without a candidate value:
absent, undecodable, or an expired miss marker. -/
def lruMissAt (lru : String → Option LruItem) (now : Int) (q : String) : Prop :=
  lru q = Option.none ∨
    ∃ item, lru q = some item ∧
      (item.value = Blob.corrupt ∨
        (item.value = Blob.bytesOf zeroData ∧ item.expired now = true))

/-- The local store holds an unexpired decodable non-marker record for `q`. -/
def lruFreshAt (lru : String → Option LruItem) (now : Int) (q : String)
    (d : Data) : Prop :=
  ∃ item, lru q = some item ∧ item.value = Blob.bytesOf d ∧ d ≠ zeroData ∧
    item.expired now = false

/-- The local store holds an expired decodable non-marker record for `q`
(the stale-candidate case). -/
def lruStaleAt (lru : String → Option LruItem) (now : Int) (q : String)
    (d : Data) : Prop :=
  ∃ item, lru q = some item ∧ item.value = Blob.bytesOf d ∧ d ≠ zeroData ∧
    item.expired now = true

/-- The local store holds an unexpired miss marker for `q` (the terminal
negative-cache case). -/
def lruMarkerFreshAt (lru : String → Option LruItem) (now : Int) (q : String) :
    Prop :=
  ∃ item, lru q = some item ∧ item.value = Blob.bytesOf zeroData ∧
    item.expired now = false

/-- The remote pass sees nothing usable for `q`: the namespaced key is
absent (or past its hard TTL, or a per-key transport error) or undecodable. -/
def redisAbsentAt (opts : Options) (redis : String → Option RedisEntry)
    (now : Int) (q : String) : Prop :=
  redisLookup redis now (mkRedisKey opts q) = Option.none ∨
    redisLookup redis now (mkRedisKey opts q) = some Blob.corrupt

/-- The remote pass sees the miss marker for `q`. -/
def redisMarkerAt (opts : Options) (redis : String → Option RedisEntry)
    (now : Int) (q : String) : Prop :=
  redisLookup redis now (mkRedisKey opts q) = some (Blob.bytesOf zeroData)

/-- The remote pass sees a decodable non-marker record for `q` within the
soft TTL. -/
def redisFreshAt (opts : Options) (ro : RedisCacheOptions)
    (redis : String → Option RedisEntry) (now : Int) (q : String) (d : Data) :
    Prop :=
  redisLookup redis now (mkRedisKey opts q) = some (Blob.bytesOf d) ∧
    d ≠ zeroData ∧ now - d.modifyTime * 1000000000 ≤ ro.softTimeout

/-- The remote pass sees a decodable non-marker record for `q` beyond the
soft TTL. -/
def redisStaleAt (opts : Options) (ro : RedisCacheOptions)
    (redis : String → Option RedisEntry) (now : Int) (q : String) (d : Data) :
    Prop :=
  redisLookup redis now (mkRedisKey opts q) = some (Blob.bytesOf d) ∧
    d ≠ zeroData ∧ ro.softTimeout < now - d.modifyTime * 1000000000

/-- Last binding of `k` in an association list (Go map iteration writes in
list order, so the last binding is what a fold of point updates leaves). -/
def lookupLastKv : List (String × Bytes) → String → Option Bytes
  | [], _ => Option.none
  | kv :: rest, k =>
    match lookupLastKv rest k with
    | some v => some v
    | Option.none => if kv.1 = k then some kv.2 else Option.none

/-! ### Concrete configurations, stores and environments used to evaluate
the engine on closed inputs -/

def validsFalse : String → Bool := fun _ => false

/-- Environment whose loader finds nothing and never fails; writes succeed. -/
def envNone : Env := ⟨fun _ => ⟨fun _ => Option.none, [], false⟩, true⟩

/-- Environment whose loader fails (returning no partial values). -/
def envErr : Env := ⟨fun _ => ⟨fun _ => Option.none, [], true⟩, true⟩

def loW : LRUCacheOptions := ⟨100, 500000000, 100000000⟩

def loNoNeg : LRUCacheOptions := ⟨100, 500000000, 0⟩

def roW : RedisCacheOptions := ⟨true, "p", 2000000000, 1000000000, 100000000⟩

def optsLRW : Options := ⟨some loW, some roW, true, CompressionType.none⟩

def optsNoNeg : Options := ⟨some loNoNeg, some roW, true, CompressionType.none⟩

def optsLocalW : Options := ⟨some loW, Option.none, true, CompressionType.none⟩

def optsRemoteW : Options := ⟨Option.none, some roW, true, CompressionType.snappy⟩

/-- Remote-only configuration with no loader, snappy mode. -/
def optsRemoteNL : Options :=
  ⟨Option.none, some roW, false, CompressionType.snappy⟩

def dFreshW : Data := ⟨[7], 1, CompressionType.none⟩

/-- Store with an unexpired local record for "a" and an empty remote tier. -/
def stFreshW : CacheState :=
  ⟨fun k => if k = "a" then some ⟨Blob.bytesOf dFreshW, 2000000000⟩
    else Option.none,
   fun _ => Option.none⟩

def dStaleW : Data := ⟨[5], 0, CompressionType.none⟩

/-- Store with an expired local record for "a" and an empty remote tier. -/
def stStaleW : CacheState :=
  ⟨fun k => if k = "a" then some ⟨Blob.bytesOf dStaleW, 100⟩ else Option.none,
   fun _ => Option.none⟩

def dRemoteFreshW : Data := ⟨[2], 1, CompressionType.none⟩

/-- Store with an expired local record (raw `[1]`) and a remotely fresh
record (raw `[2]`) for "a". -/
def stC1 : CacheState :=
  ⟨fun k => if k = "a" then
      some ⟨Blob.bytesOf ⟨[1], 0, CompressionType.none⟩, 100⟩
    else Option.none,
   fun k => if k = "p_a" then some ⟨Blob.bytesOf dRemoteFreshW, 100000000000⟩
    else Option.none⟩

def dStaleR : Data := ⟨[2], 0, CompressionType.none⟩

def valuesW : String → Option Bytes :=
  fun k => if k = "a" then some [1] else Option.none

/-- Remote store holding a stale (at `now = 3e9`) record for "a". -/
def redisW : String → Option RedisEntry :=
  fun k => if k = "p_a" then some ⟨Blob.bytesOf dStaleR, 100000000000⟩
    else Option.none

/-- Store with an empty local tier and a remotely stale (at `now = 3e9`)
record for "a": the soft-expired-remote candidate scenario. -/
def stRemoteStale : CacheState := ⟨fun _ => Option.none, redisW⟩

def dBadW : Data := ⟨[9], 1, CompressionType.snappy⟩

/-- Remote store holding a fresh record for "a" whose payload fails snappy
decoding. -/
def redisBadW : String → Option RedisEntry :=
  fun k => if k = "p_a" then some ⟨Blob.bytesOf dBadW, 100000000000⟩
    else Option.none

def stBadW : CacheState := ⟨fun _ => Option.none, redisBadW⟩

def roShort : RedisCacheOptions := ⟨true, "p", 2000000000, 500000000, 0⟩

/-- Remote-only configuration with a sub-second soft TTL and no loader. -/
def optsShort : Options := ⟨Option.none, some roShort, false, CompressionType.none⟩

/-- A wall-clock instant 0.6s past a whole second (year 2020). -/
def nowW : Int := 1600000000000000000 + 600000000

def stEmpty : CacheState := ⟨fun _ => Option.none, fun _ => Option.none⟩

/-! ### Map-update and per-step lemmas -/

theorem upd_self {α : Type} (m : String → α) (k : String) (v : α) :
    upd m k v k = v := by
  simp [upd]

theorem upd_ne {α : Type} {q k : String} (h : q ≠ k) (m : String → α) (v : α) :
    upd m k v q = m q := by
  simp [upd, h]

theorem lruStep_maps_ne (lru : String → Option LruItem) (now : Int)
    {q key : String} (h : q ≠ key) (values : String → Option Bytes)
    (valids : String → Bool) :
    (lruStep lru now key values valids).1.1 q = values q ∧
    (lruStep lru now key values valids).1.2 q = valids q := by
  unfold lruStep
  cases hl : lru key with
  | none => simp
  | some item =>
    cases hv : item.value with
    | corrupt => simp [hv]
    | bytesOf d =>
      by_cases hz : d = zeroData
      · simp [hv, hz]
      · by_cases he : item.expired now <;>
          simp [hv, hz, he, upd_ne h]

theorem lruStep_absent (lru : String → Option LruItem) (now : Int)
    {key : String} (h : lru key = Option.none)
    (values : String → Option Bytes) (valids : String → Bool) :
    lruStep lru now key values valids = ((values, valids), true) := by
  simp [lruStep, h]

theorem lruStep_corrupt (lru : String → Option LruItem) (now : Int)
    {key : String} {item : LruItem} (h : lru key = some item)
    (hv : item.value = Blob.corrupt)
    (values : String → Option Bytes) (valids : String → Bool) :
    lruStep lru now key values valids = ((values, valids), true) := by
  simp [lruStep, h, hv]

theorem lruStep_marker (lru : String → Option LruItem) (now : Int)
    {key : String} {item : LruItem} (h : lru key = some item)
    (hv : item.value = Blob.bytesOf zeroData)
    (values : String → Option Bytes) (valids : String → Bool) :
    lruStep lru now key values valids = ((values, valids), item.expired now) := by
  simp [lruStep, h, hv]

theorem lruStep_fresh (lru : String → Option LruItem) (now : Int)
    {key : String} {item : LruItem} {d : Data} (h : lru key = some item)
    (hv : item.value = Blob.bytesOf d) (hz : d ≠ zeroData)
    (he : item.expired now = false)
    (values : String → Option Bytes) (valids : String → Bool) :
    lruStep lru now key values valids
      = ((upd values key (some d.raw), upd valids key true), false) := by
  simp [lruStep, h, hv, hz, he]

theorem lruStep_stale (lru : String → Option LruItem) (now : Int)
    {key : String} {item : LruItem} {d : Data} (h : lru key = some item)
    (hv : item.value = Blob.bytesOf d) (hz : d ≠ zeroData)
    (he : item.expired now = true)
    (values : String → Option Bytes) (valids : String → Bool) :
    lruStep lru now key values valids
      = ((upd values key (some d.raw), valids), true) := by
  simp [lruStep, h, hv, hz, he]

/-! ### Local-pass loop lemmas -/

theorem mGetLRUGo_frame (lru : String → Option LruItem) (now : Int) :
    ∀ (keys : List String) (values : String → Option Bytes)
      (valids : String → Bool) (q : String), q ∉ keys →
      (mGetLRUGo lru now keys values valids).1 q = values q ∧
      (mGetLRUGo lru now keys values valids).2.1 q = valids q := by
  intro keys
  induction keys with
  | nil => intro values valids q _; simp [mGetLRUGo]
  | cons key rest ih =>
    intro values valids q hq
    have hqk : q ≠ key := fun h => hq (h ▸ List.mem_cons_self key rest)
    have hqr : q ∉ rest := fun h => hq (List.mem_cons_of_mem key h)
    have hstep := lruStep_maps_ne lru now hqk values valids
    have hrec := ih (lruStep lru now key values valids).1.1
      (lruStep lru now key values valids).1.2 q hqr
    simp only [mGetLRUGo]
    exact ⟨hrec.1.trans hstep.1, hrec.2.trans hstep.2⟩

theorem mGetLRUGo_miss_sub (lru : String → Option LruItem) (now : Int) :
    ∀ (keys : List String) (values : String → Option Bytes)
      (valids : String → Bool) (q : String),
      q ∈ (mGetLRUGo lru now keys values valids).2.2 → q ∈ keys := by
  intro keys
  induction keys with
  | nil => intro values valids q h; simp [mGetLRUGo] at h
  | cons key rest ih =>
    intro values valids q h
    simp only [mGetLRUGo] at h
    by_cases hs : (lruStep lru now key values valids).2
    · simp only [hs, if_true] at h
      rcases List.mem_cons.mp h with h | h
      · exact h ▸ List.mem_cons_self key rest
      · exact List.mem_cons_of_mem key (ih _ _ q h)
    · simp only [hs, if_false] at h
      exact List.mem_cons_of_mem key (ih _ _ q h)

theorem mGetLRUGo_noWrite (lru : String → Option LruItem) (now : Int)
    {q : String} (hq : lruNoWriteAt lru q) :
    ∀ (keys : List String) (values : String → Option Bytes)
      (valids : String → Bool),
      (mGetLRUGo lru now keys values valids).1 q = values q ∧
      (mGetLRUGo lru now keys values valids).2.1 q = valids q := by
  intro keys
  induction keys with
  | nil => intro values valids; simp [mGetLRUGo]
  | cons key rest ih =>
    intro values valids
    have hstep : (lruStep lru now key values valids).1.1 q = values q ∧
        (lruStep lru now key values valids).1.2 q = valids q := by
      by_cases hqk : q = key
      · subst hqk
        rcases hq with h | ⟨item, hi, hc | hm⟩
        · rw [lruStep_absent lru now h]; exact ⟨rfl, rfl⟩
        · rw [lruStep_corrupt lru now hi hc]; exact ⟨rfl, rfl⟩
        · rw [lruStep_marker lru now hi hm]; exact ⟨rfl, rfl⟩
      · exact lruStep_maps_ne lru now hqk values valids
    have hrec := ih (lruStep lru now key values valids).1.1
      (lruStep lru now key values valids).1.2
    simp only [mGetLRUGo]
    exact ⟨hrec.1.trans hstep.1, hrec.2.trans hstep.2⟩

theorem mGetLRUGo_miss_mem (lru : String → Option LruItem) (now : Int)
    {q : String} (hq : lruMissAt lru now q) :
    ∀ (keys : List String) (values : String → Option Bytes)
      (valids : String → Bool), q ∈ keys →
      q ∈ (mGetLRUGo lru now keys values valids).2.2 := by
  intro keys
  induction keys with
  | nil => intro values valids h; exact absurd h (List.not_mem_nil q)
  | cons key rest ih =>
    intro values valids hmem
    simp only [mGetLRUGo]
    by_cases hqk : q = key
    · subst hqk
      have hs : (lruStep lru now q values valids).2 = true := by
        rcases hq with h | ⟨item, hi, hc | ⟨hm, he⟩⟩
        · rw [lruStep_absent lru now h]
        · rw [lruStep_corrupt lru now hi hc]
        · rw [lruStep_marker lru now hi hm]; exact he
      simp [hs]
    · rcases List.mem_cons.mp hmem with h | h
      · exact absurd h hqk
      · have := ih (lruStep lru now key values valids).1.1
          (lruStep lru now key values valids).1.2 h
        by_cases hs : (lruStep lru now key values valids).2 <;>
          simp [hs, this]

theorem mGetLRUGo_markerFresh (lru : String → Option LruItem) (now : Int)
    {q : String} (hq : lruMarkerFreshAt lru now q) :
    ∀ (keys : List String) (values : String → Option Bytes)
      (valids : String → Bool),
      q ∉ (mGetLRUGo lru now keys values valids).2.2 := by
  intro keys
  induction keys with
  | nil => intro values valids; simp [mGetLRUGo]
  | cons key rest ih =>
    intro values valids
    obtain ⟨item, hi, hm, he⟩ := hq
    simp only [mGetLRUGo]
    by_cases hqk : q = key
    · subst hqk
      have hs : (lruStep lru now q values valids).2 = false := by
        rw [lruStep_marker lru now hi hm]; exact he
      simp [hs, ih]
    · by_cases hs : (lruStep lru now key values valids).2 <;>
        simp [hs, ih, Ne.symm hqk, hqk]

theorem mGetLRUGo_fresh_stable (lru : String → Option LruItem) (now : Int)
    {q : String} {d : Data} (hq : lruFreshAt lru now q d) :
    ∀ (keys : List String) (values : String → Option Bytes)
      (valids : String → Bool),
      values q = some d.raw → valids q = true →
      (mGetLRUGo lru now keys values valids).1 q = some d.raw ∧
      (mGetLRUGo lru now keys values valids).2.1 q = true := by
  intro keys
  induction keys with
  | nil => intro values valids hv hva; simp [mGetLRUGo, hv, hva]
  | cons key rest ih =>
    intro values valids hv hva
    obtain ⟨item, hi, hb, hz, he⟩ := hq
    simp only [mGetLRUGo]
    have hstep : (lruStep lru now key values valids).1.1 q = some d.raw ∧
        (lruStep lru now key values valids).1.2 q = true := by
      by_cases hqk : q = key
      · subst hqk
        rw [lruStep_fresh lru now hi hb hz he]
        exact ⟨upd_self values q (some d.raw), upd_self valids q true⟩
      · have := lruStep_maps_ne lru now hqk values valids
        exact ⟨this.1.trans hv, this.2.trans hva⟩
    exact ih _ _ hstep.1 hstep.2

theorem mGetLRUGo_fresh_mem (lru : String → Option LruItem) (now : Int)
    {q : String} {d : Data} (hq : lruFreshAt lru now q d) :
    ∀ (keys : List String) (values : String → Option Bytes)
      (valids : String → Bool), q ∈ keys →
      (mGetLRUGo lru now keys values valids).1 q = some d.raw ∧
      (mGetLRUGo lru now keys values valids).2.1 q = true := by
  intro keys
  induction keys with
  | nil => intro values valids h; exact absurd h (List.not_mem_nil q)
  | cons key rest ih =>
    intro values valids hmem
    obtain ⟨item, hi, hb, hz, he⟩ := hq
    simp only [mGetLRUGo]
    by_cases hqk : q = key
    · subst hqk
      rw [lruStep_fresh lru now hi hb hz he]
      exact mGetLRUGo_fresh_stable lru now ⟨item, hi, hb, hz, he⟩ rest _ _
        (upd_self values q (some d.raw)) (upd_self valids q true)
    · rcases List.mem_cons.mp hmem with h | h
      · exact absurd h hqk
      · exact ih _ _ h

theorem mGetLRUGo_fresh_not_miss (lru : String → Option LruItem) (now : Int)
    {q : String} {d : Data} (hq : lruFreshAt lru now q d) :
    ∀ (keys : List String) (values : String → Option Bytes)
      (valids : String → Bool),
      q ∉ (mGetLRUGo lru now keys values valids).2.2 := by
  intro keys
  induction keys with
  | nil => intro values valids; simp [mGetLRUGo]
  | cons key rest ih =>
    intro values valids
    obtain ⟨item, hi, hb, hz, he⟩ := hq
    simp only [mGetLRUGo]
    by_cases hqk : q = key
    · subst hqk
      have hs : (lruStep lru now q values valids).2 = false := by
        rw [lruStep_fresh lru now hi hb hz he]
      simp [hs, ih]
    · by_cases hs : (lruStep lru now key values valids).2 <;>
        simp [hs, ih, Ne.symm hqk, hqk]

theorem mGetLRUGo_stale_stable (lru : String → Option LruItem) (now : Int)
    {q : String} {d : Data} (hq : lruStaleAt lru now q d) :
    ∀ (keys : List String) (values : String → Option Bytes)
      (valids : String → Bool),
      values q = some d.raw →
      (mGetLRUGo lru now keys values valids).1 q = some d.raw ∧
      (mGetLRUGo lru now keys values valids).2.1 q = valids q := by
  intro keys
  induction keys with
  | nil => intro values valids hv; simp [mGetLRUGo, hv]
  | cons key rest ih =>
    intro values valids hv
    obtain ⟨item, hi, hb, hz, he⟩ := hq
    simp only [mGetLRUGo]
    have hstep : (lruStep lru now key values valids).1.1 q = some d.raw ∧
        (lruStep lru now key values valids).1.2 q = valids q := by
      by_cases hqk : q = key
      · subst hqk
        rw [lruStep_stale lru now hi hb hz he]
        exact ⟨upd_self values q (some d.raw), rfl⟩
      · have := lruStep_maps_ne lru now hqk values valids
        exact ⟨this.1.trans hv, this.2⟩
    have hrec := ih (lruStep lru now key values valids).1.1
      (lruStep lru now key values valids).1.2 hstep.1
    exact ⟨hrec.1, hrec.2.trans hstep.2⟩

theorem mGetLRUGo_stale_mem (lru : String → Option LruItem) (now : Int)
    {q : String} {d : Data} (hq : lruStaleAt lru now q d) :
    ∀ (keys : List String) (values : String → Option Bytes)
      (valids : String → Bool), q ∈ keys →
      (mGetLRUGo lru now keys values valids).1 q = some d.raw ∧
      (mGetLRUGo lru now keys values valids).2.1 q = valids q ∧
      q ∈ (mGetLRUGo lru now keys values valids).2.2 := by
  intro keys
  induction keys with
  | nil => intro values valids h; exact absurd h (List.not_mem_nil q)
  | cons key rest ih =>
    intro values valids hmem
    obtain ⟨item, hi, hb, hz, he⟩ := hq
    by_cases hqk : q = key
    · subst hqk
      simp only [mGetLRUGo]
      rw [lruStep_stale lru now hi hb hz he]
      have hst := mGetLRUGo_stale_stable lru now ⟨item, hi, hb, hz, he⟩ rest
        (upd values q (some d.raw)) valids (upd_self values q (some d.raw))
      simp only [if_true]
      exact ⟨hst.1, hst.2, List.mem_cons_self q _⟩
    · rcases List.mem_cons.mp hmem with h | h
      · exact absurd h hqk
      · simp only [mGetLRUGo]
        have hstep := lruStep_maps_ne lru now hqk values valids
        have hrec := ih (lruStep lru now key values valids).1.1
          (lruStep lru now key values valids).1.2 h
        refine ⟨hrec.1, hrec.2.1.trans hstep.2, ?_⟩
        by_cases hs : (lruStep lru now key values valids).2 <;>
          simp [hs, hrec.2.2]

theorem mGetLRUGo_miss_class (lru : String → Option LruItem) (now : Int) :
    ∀ (keys : List String) (values : String → Option Bytes)
      (valids : String → Bool) (q : String),
      q ∈ (mGetLRUGo lru now keys values valids).2.2 →
      lruMissAt lru now q ∨ ∃ d, lruStaleAt lru now q d := by
  intro keys
  induction keys with
  | nil => intro values valids q h; simp [mGetLRUGo] at h
  | cons key rest ih =>
    intro values valids q h
    simp only [mGetLRUGo] at h
    by_cases hs : (lruStep lru now key values valids).2
    · simp only [hs, if_true] at h
      rcases List.mem_cons.mp h with rfl | h
      · -- the step reported a miss for q itself: classify the store at q
        cases hl : lru q with
        | none => exact Or.inl (Or.inl hl)
        | some item =>
          cases hv : item.value with
          | corrupt => exact Or.inl (Or.inr ⟨item, hl, Or.inl hv⟩)
          | bytesOf d =>
            by_cases hz : d = zeroData
            · subst hz
              have he : item.expired now = true := by
                have := lruStep_marker lru now hl hv values valids
                rw [this] at hs
                exact hs
              exact Or.inl (Or.inr ⟨item, hl, Or.inr ⟨hv, he⟩⟩)
            · by_cases he : item.expired now = true
              · exact Or.inr ⟨d, item, hl, hv, hz, he⟩
              · exfalso
                have := lruStep_fresh lru now hl hv hz
                  (Bool.not_eq_true _ ▸ he) values valids
                rw [this] at hs
                exact Bool.false_ne_true hs
      · exact ih _ _ q h
    · simp only [hs, if_false] at h
      exact ih _ _ q h

/-! ### Remote-pass step and loop lemmas -/

theorem redisStep_maps_ne (opts : Options) (ro : RedisCacheOptions)
    (redis : String → Option RedisEntry) (now : Int)
    {q key : String} (h : q ≠ key) (values : String → Option Bytes)
    (valids : String → Bool) :
    (redisStep opts ro redis now key values valids).1.1 q = values q ∧
    (redisStep opts ro redis now key values valids).1.2 q = valids q := by
  unfold redisStep
  cases hl : redisLookup redis now (mkRedisKey opts key) with
  | none => simp
  | some blob =>
    cases blob with
    | corrupt => simp
    | bytesOf d =>
      by_cases hz : d = zeroData
      · simp [hz]
      · by_cases ha : now - d.modifyTime * 1000000000 ≤ ro.softTimeout
        · simp [hz, ha, upd_ne h]
        · by_cases hn : (values key).isNone <;>
            simp [hz, ha, hn, upd_ne h]

theorem redisStep_absent (opts : Options) (ro : RedisCacheOptions)
    (redis : String → Option RedisEntry) (now : Int) {key : String}
    (h : redisLookup redis now (mkRedisKey opts key) = Option.none)
    (values : String → Option Bytes) (valids : String → Bool) :
    redisStep opts ro redis now key values valids = ((values, valids), true) := by
  simp [redisStep, h]

theorem redisStep_corrupt (opts : Options) (ro : RedisCacheOptions)
    (redis : String → Option RedisEntry) (now : Int) {key : String}
    (h : redisLookup redis now (mkRedisKey opts key) = some Blob.corrupt)
    (values : String → Option Bytes) (valids : String → Bool) :
    redisStep opts ro redis now key values valids = ((values, valids), true) := by
  simp [redisStep, h]

theorem redisStep_marker (opts : Options) (ro : RedisCacheOptions)
    (redis : String → Option RedisEntry) (now : Int) {key : String}
    (h : redisLookup redis now (mkRedisKey opts key) = some (Blob.bytesOf zeroData))
    (values : String → Option Bytes) (valids : String → Bool) :
    redisStep opts ro redis now key values valids = ((values, valids), false) := by
  simp [redisStep, h]

theorem redisStep_fresh (opts : Options) (ro : RedisCacheOptions)
    (redis : String → Option RedisEntry) (now : Int) {key : String} {d : Data}
    (h : redisLookup redis now (mkRedisKey opts key) = some (Blob.bytesOf d))
    (hz : d ≠ zeroData) (ha : now - d.modifyTime * 1000000000 ≤ ro.softTimeout)
    (values : String → Option Bytes) (valids : String → Bool) :
    redisStep opts ro redis now key values valids
      = ((upd values key (some (decompressOrNil d.compressionType d.raw)),
          upd valids key true), false) := by
  simp [redisStep, h, hz, ha]

theorem redisStep_stale (opts : Options) (ro : RedisCacheOptions)
    (redis : String → Option RedisEntry) (now : Int) {key : String} {d : Data}
    (h : redisLookup redis now (mkRedisKey opts key) = some (Blob.bytesOf d))
    (hz : d ≠ zeroData) (ha : ro.softTimeout < now - d.modifyTime * 1000000000)
    (values : String → Option Bytes) (valids : String → Bool) :
    redisStep opts ro redis now key values valids
      = ((if (values key).isNone then
            upd values key (some (decompressOrNil d.compressionType d.raw))
          else values, valids), true) := by
  have ha1 : ¬ now - d.modifyTime * 1000000000 ≤ ro.softTimeout := not_le.mpr ha
  simp [redisStep, h, hz, ha1]

theorem mGetRedisGo_frame (opts : Options) (ro : RedisCacheOptions)
    (redis : String → Option RedisEntry) (now : Int) :
    ∀ (keys : List String) (values : String → Option Bytes)
      (valids : String → Bool) (q : String), q ∉ keys →
      (mGetRedisGo opts ro redis now keys values valids).1 q = values q ∧
      (mGetRedisGo opts ro redis now keys values valids).2.1 q = valids q := by
  intro keys
  induction keys with
  | nil => intro values valids q _; simp [mGetRedisGo]
  | cons key rest ih =>
    intro values valids q hq
    have hqk : q ≠ key := fun h => hq (h ▸ List.mem_cons_self key rest)
    have hqr : q ∉ rest := fun h => hq (List.mem_cons_of_mem key h)
    have hstep := redisStep_maps_ne opts ro redis now hqk values valids
    have hrec := ih (redisStep opts ro redis now key values valids).1.1
      (redisStep opts ro redis now key values valids).1.2 q hqr
    simp only [mGetRedisGo]
    exact ⟨hrec.1.trans hstep.1, hrec.2.trans hstep.2⟩

theorem mGetRedisGo_miss_sub (opts : Options) (ro : RedisCacheOptions)
    (redis : String → Option RedisEntry) (now : Int) :
    ∀ (keys : List String) (values : String → Option Bytes)
      (valids : String → Bool) (q : String),
      q ∈ (mGetRedisGo opts ro redis now keys values valids).2.2 → q ∈ keys := by
  intro keys
  induction keys with
  | nil => intro values valids q h; simp [mGetRedisGo] at h
  | cons key rest ih =>
    intro values valids q h
    simp only [mGetRedisGo] at h
    by_cases hs : (redisStep opts ro redis now key values valids).2
    · simp only [hs, if_true] at h
      rcases List.mem_cons.mp h with h | h
      · exact h ▸ List.mem_cons_self key rest
      · exact List.mem_cons_of_mem key (ih _ _ q h)
    · simp only [hs, if_false] at h
      exact List.mem_cons_of_mem key (ih _ _ q h)

theorem mGetRedisGo_marker (opts : Options) (ro : RedisCacheOptions)
    (redis : String → Option RedisEntry) (now : Int)
    {q : String} (hq : redisMarkerAt opts redis now q) :
    ∀ (keys : List String) (values : String → Option Bytes)
      (valids : String → Bool),
      (mGetRedisGo opts ro redis now keys values valids).1 q = values q ∧
      (mGetRedisGo opts ro redis now keys values valids).2.1 q = valids q ∧
      q ∉ (mGetRedisGo opts ro redis now keys values valids).2.2 := by
  intro keys
  induction keys with
  | nil => intro values valids; simp [mGetRedisGo]
  | cons key rest ih =>
    intro values valids
    simp only [mGetRedisGo]
    by_cases hqk : q = key
    · subst hqk
      rw [redisStep_marker opts ro redis now hq]
      have hrec := ih values valids
      simp only [if_false, Bool.false_eq_true]
      exact hrec
    · have hstep := redisStep_maps_ne opts ro redis now hqk values valids
      have hrec := ih (redisStep opts ro redis now key values valids).1.1
        (redisStep opts ro redis now key values valids).1.2
      refine ⟨hrec.1.trans hstep.1, hrec.2.1.trans hstep.2, ?_⟩
      by_cases hs : (redisStep opts ro redis now key values valids).2 <;>
        simp [hs, hrec.2.2, hqk]

theorem mGetRedisGo_absent (opts : Options) (ro : RedisCacheOptions)
    (redis : String → Option RedisEntry) (now : Int)
    {q : String} (hq : redisAbsentAt opts redis now q) :
    ∀ (keys : List String) (values : String → Option Bytes)
      (valids : String → Bool),
      (mGetRedisGo opts ro redis now keys values valids).1 q = values q ∧
      (mGetRedisGo opts ro redis now keys values valids).2.1 q = valids q ∧
      (q ∈ keys → q ∈ (mGetRedisGo opts ro redis now keys values valids).2.2) := by
  intro keys
  induction keys with
  | nil => intro values valids; simp [mGetRedisGo]
  | cons key rest ih =>
    intro values valids
    simp only [mGetRedisGo]
    by_cases hqk : q = key
    · subst hqk
      have hs : redisStep opts ro redis now q values valids = ((values, valids), true) := by
        rcases hq with h | h
        · exact redisStep_absent opts ro redis now h values valids
        · exact redisStep_corrupt opts ro redis now h values valids
      rw [hs]
      have hrec := ih values valids
      simp only [if_true]
      exact ⟨hrec.1, hrec.2.1, fun _ => List.mem_cons.mpr (Or.inl rfl)⟩
    · have hstep := redisStep_maps_ne opts ro redis now hqk values valids
      have hrec := ih (redisStep opts ro redis now key values valids).1.1
        (redisStep opts ro redis now key values valids).1.2
      refine ⟨hrec.1.trans hstep.1, hrec.2.1.trans hstep.2, fun hmem => ?_⟩
      rcases List.mem_cons.mp hmem with h | h
      · exact absurd h hqk
      · have := hrec.2.2 h
        by_cases hs : (redisStep opts ro redis now key values valids).2 <;>
          simp [hs, this]

theorem mGetRedisGo_fresh_stable (opts : Options) (ro : RedisCacheOptions)
    (redis : String → Option RedisEntry) (now : Int)
    {q : String} {d : Data} (hq : redisFreshAt opts ro redis now q d) :
    ∀ (keys : List String) (values : String → Option Bytes)
      (valids : String → Bool),
      values q = some (decompressOrNil d.compressionType d.raw) →
      valids q = true →
      (mGetRedisGo opts ro redis now keys values valids).1 q
        = some (decompressOrNil d.compressionType d.raw) ∧
      (mGetRedisGo opts ro redis now keys values valids).2.1 q = true := by
  intro keys
  induction keys with
  | nil => intro values valids hv hva; simp [mGetRedisGo, hv, hva]
  | cons key rest ih =>
    intro values valids hv hva
    obtain ⟨hl, hz, ha⟩ := hq
    simp only [mGetRedisGo]
    have hstep : (redisStep opts ro redis now key values valids).1.1 q
        = some (decompressOrNil d.compressionType d.raw) ∧
        (redisStep opts ro redis now key values valids).1.2 q = true := by
      by_cases hqk : q = key
      · subst hqk
        rw [redisStep_fresh opts ro redis now hl hz ha]
        exact ⟨upd_self values q _, upd_self valids q true⟩
      · have := redisStep_maps_ne opts ro redis now hqk values valids
        exact ⟨this.1.trans hv, this.2.trans hva⟩
    exact ih _ _ hstep.1 hstep.2

theorem mGetRedisGo_fresh_mem (opts : Options) (ro : RedisCacheOptions)
    (redis : String → Option RedisEntry) (now : Int)
    {q : String} {d : Data} (hq : redisFreshAt opts ro redis now q d) :
    ∀ (keys : List String) (values : String → Option Bytes)
      (valids : String → Bool), q ∈ keys →
      (mGetRedisGo opts ro redis now keys values valids).1 q
        = some (decompressOrNil d.compressionType d.raw) ∧
      (mGetRedisGo opts ro redis now keys values valids).2.1 q = true := by
  intro keys
  induction keys with
  | nil => intro values valids h; exact absurd h (List.not_mem_nil q)
  | cons key rest ih =>
    intro values valids hmem
    obtain ⟨hl, hz, ha⟩ := hq
    simp only [mGetRedisGo]
    by_cases hqk : q = key
    · subst hqk
      rw [redisStep_fresh opts ro redis now hl hz ha]
      exact mGetRedisGo_fresh_stable opts ro redis now ⟨hl, hz, ha⟩ rest _ _
        (upd_self values q _) (upd_self valids q true)
    · rcases List.mem_cons.mp hmem with h | h
      · exact absurd h hqk
      · exact ih _ _ h

theorem mGetRedisGo_fresh_not_miss (opts : Options) (ro : RedisCacheOptions)
    (redis : String → Option RedisEntry) (now : Int)
    {q : String} {d : Data} (hq : redisFreshAt opts ro redis now q d) :
    ∀ (keys : List String) (values : String → Option Bytes)
      (valids : String → Bool),
      q ∉ (mGetRedisGo opts ro redis now keys values valids).2.2 := by
  intro keys
  induction keys with
  | nil => intro values valids; simp [mGetRedisGo]
  | cons key rest ih =>
    intro values valids
    obtain ⟨hl, hz, ha⟩ := hq
    simp only [mGetRedisGo]
    by_cases hqk : q = key
    · subst hqk
      have hs : (redisStep opts ro redis now q values valids).2 = false := by
        rw [redisStep_fresh opts ro redis now hl hz ha]
      simp [hs, ih]
    · by_cases hs : (redisStep opts ro redis now key values valids).2 <;>
        simp [hs, ih, Ne.symm hqk, hqk]

theorem mGetRedisGo_stale_stable (opts : Options) (ro : RedisCacheOptions)
    (redis : String → Option RedisEntry) (now : Int)
    {q : String} {d : Data} (hq : redisStaleAt opts ro redis now q d) :
    ∀ (keys : List String) (values : String → Option Bytes)
      (valids : String → Bool) (c : Bytes),
      values q = some c →
      (mGetRedisGo opts ro redis now keys values valids).1 q = some c ∧
      (mGetRedisGo opts ro redis now keys values valids).2.1 q = valids q := by
  intro keys
  induction keys with
  | nil => intro values valids c hv; simp [mGetRedisGo, hv]
  | cons key rest ih =>
    intro values valids c hv
    obtain ⟨hl, hz, ha⟩ := hq
    simp only [mGetRedisGo]
    have hstep : (redisStep opts ro redis now key values valids).1.1 q = some c ∧
        (redisStep opts ro redis now key values valids).1.2 q = valids q := by
      by_cases hqk : q = key
      · subst hqk
        rw [redisStep_stale opts ro redis now hl hz ha]
        have hn : (values q).isNone = false := by rw [hv]; rfl
        simp [hn, hv]
      · have := redisStep_maps_ne opts ro redis now hqk values valids
        exact ⟨this.1.trans hv, this.2⟩
    have hrec := ih (redisStep opts ro redis now key values valids).1.1
      (redisStep opts ro redis now key values valids).1.2 c hstep.1
    exact ⟨hrec.1, hrec.2.trans hstep.2⟩

theorem mGetRedisGo_stale_mem (opts : Options) (ro : RedisCacheOptions)
    (redis : String → Option RedisEntry) (now : Int)
    {q : String} {d : Data} (hq : redisStaleAt opts ro redis now q d) :
    ∀ (keys : List String) (values : String → Option Bytes)
      (valids : String → Bool), q ∈ keys →
      ((values q = Option.none →
        (mGetRedisGo opts ro redis now keys values valids).1 q
          = some (decompressOrNil d.compressionType d.raw)) ∧
       (∀ c, values q = some c →
        (mGetRedisGo opts ro redis now keys values valids).1 q = some c) ∧
       (mGetRedisGo opts ro redis now keys values valids).2.1 q = valids q ∧
       q ∈ (mGetRedisGo opts ro redis now keys values valids).2.2) := by
  intro keys
  induction keys with
  | nil => intro values valids h; exact absurd h (List.not_mem_nil q)
  | cons key rest ih =>
    intro values valids hmem
    obtain ⟨hl, hz, ha⟩ := hq
    by_cases hqk : q = key
    · subst hqk
      simp only [mGetRedisGo]
      rw [redisStep_stale opts ro redis now hl hz ha]
      simp only [if_true]
      constructor
      · intro hv
        have hn : (values q).isNone = true := by rw [hv]; rfl
        simp only [hn, if_true]
        have := mGetRedisGo_stale_stable opts ro redis now ⟨hl, hz, ha⟩ rest
          (upd values q (some (decompressOrNil d.compressionType d.raw))) valids
          (decompressOrNil d.compressionType d.raw) (upd_self values q _)
        exact this.1
      constructor
      · intro c hv
        have hn : (values q).isNone = false := by rw [hv]; rfl
        simp only [hn, Bool.false_eq_true, if_false]
        exact (mGetRedisGo_stale_stable opts ro redis now ⟨hl, hz, ha⟩ rest
          values valids c hv).1
      constructor
      · by_cases hn : (values q).isNone
        · simp only [hn, if_true]
          have hv : values q = Option.none := Option.isNone_iff_eq_none.mp hn
          exact (mGetRedisGo_stale_stable opts ro redis now ⟨hl, hz, ha⟩ rest
            (upd values q (some (decompressOrNil d.compressionType d.raw))) valids
            (decompressOrNil d.compressionType d.raw) (upd_self values q _)).2
        · simp only [hn, Bool.false_eq_true, if_false]
          obtain ⟨c, hc⟩ := Option.ne_none_iff_exists'.mp
            (fun h => hn (Option.isNone_iff_eq_none.mpr h))
          exact (mGetRedisGo_stale_stable opts ro redis now ⟨hl, hz, ha⟩ rest
            values valids c hc).2
      · exact List.mem_cons.mpr (Or.inl rfl)
    · rcases List.mem_cons.mp hmem with h | h
      · exact absurd h hqk
      · simp only [mGetRedisGo]
        have hstep := redisStep_maps_ne opts ro redis now hqk values valids
        have hrec := ih (redisStep opts ro redis now key values valids).1.1
          (redisStep opts ro redis now key values valids).1.2 h
        refine ⟨?_, ?_, hrec.2.2.1.trans hstep.2, ?_⟩
        · intro hv
          exact hrec.1 (hstep.1.trans hv)
        · intro c hv
          exact hrec.2.1 c (hstep.1.trans hv)
        · by_cases hs : (redisStep opts ro redis now key values valids).2 <;>
            simp [hs, hrec.2.2.2]

/-! ### Write-path fold lemmas -/

theorem foldl_upd_map {α : Type} (f : String → String)
    (hf : ∀ a b, f a = f b → a = b) (g : String → Option α) :
    ∀ (l : List String) (s : String → Option α) (k : String),
      (l.foldl (fun s x => upd s (f x) (g x)) s) (f k)
        = if k ∈ l then g k else s (f k) := by
  intro l
  induction l with
  | nil => intro s k; simp
  | cons x rest ih =>
    intro s k
    rw [List.foldl_cons, ih]
    by_cases hk : k ∈ rest
    · simp [hk]
    · by_cases hkx : k = x
      · subst hkx
        simp [hk, upd_self]
      · have hne : f k ≠ f x := fun h => hkx (hf k x h)
        simp [hk, hkx, upd_ne hne]

theorem foldl_upd_kvs_map {α : Type} (f : String → String)
    (hf : ∀ a b, f a = f b → a = b) (h : String → Bytes → Option α) :
    ∀ (kvs : List (String × Bytes)) (s : String → Option α) (k : String),
      (kvs.foldl (fun st kv => upd st (f kv.1) (h kv.1 kv.2)) s) (f k)
        = match lookupLastKv kvs k with
          | some v => h k v
          | Option.none => s (f k) := by
  intro kvs
  induction kvs with
  | nil => intro s k; simp [lookupLastKv]
  | cons kv rest ih =>
    intro s k
    rw [List.foldl_cons, ih]
    simp only [lookupLastKv]
    cases hrest : lookupLastKv rest k with
    | some v => simp
    | none =>
      by_cases hkx : kv.1 = k
      · subst hkx
        simp [upd_self]
      · have hne : f k ≠ f kv.1 := fun hh => hkx (hf kv.1 k (hh.symm))
        simp [hkx, upd_ne hne]

theorem idKey_inj : ∀ a b : String, a = b → a = b := fun _ _ h => h

theorem mkRedisKey_inj (opts : Options) {ro : RedisCacheOptions}
    (h : opts.redisCacheOptions = some ro) :
    ∀ a b, mkRedisKey opts a = mkRedisKey opts b → a = b := by
  intro a b hab
  simp only [mkRedisKey, h] at hab
  have hd : (ro.pfx ++ "_" ++ a).data = (ro.pfx ++ "_" ++ b).data :=
    congrArg String.data hab
  simp only [String.data_append] at hd
  exact String.ext (List.append_cancel_left hd)

theorem lookupLastKv_filterMap_none (vals : String → Option Bytes) {K : String}
    (hK : vals K = Option.none) :
    ∀ dom : List String,
      lookupLastKv (dom.filterMap (fun k => (vals k).map (fun v => (k, v)))) K
        = Option.none := by
  intro dom
  induction dom with
  | nil => simp [lookupLastKv]
  | cons k rest ih =>
    cases hv : vals k with
    | none => simpa [hv] using ih
    | some v =>
      have hkK : k ≠ K := fun h => by rw [h, hK] at hv; exact Option.noConfusion hv
      simp only [List.filterMap_cons, hv, Option.map_some', lookupLastKv, ih, hkK]
      simp [hkK]

theorem lookupLastKv_filterMap_not_mem (vals : String → Option Bytes)
    {K : String} :
    ∀ dom : List String, K ∉ dom →
      lookupLastKv (dom.filterMap (fun k => (vals k).map (fun v => (k, v)))) K
        = Option.none := by
  intro dom
  induction dom with
  | nil => intro _; simp [lookupLastKv]
  | cons k rest ih =>
    intro hK
    have hkK : k ≠ K := fun h => hK (h ▸ List.mem_cons_self k rest)
    have hKr : K ∉ rest := fun h => hK (List.mem_cons_of_mem k h)
    cases hv : vals k with
    | none => simpa [hv] using ih hKr
    | some v =>
      simp only [List.filterMap_cons, hv, Option.map_some', lookupLastKv, ih hKr]
      simp [hkK]

theorem mem_substract {K : String} {x y : List String} :
    K ∈ substract x y ↔ K ∈ x ∧ K ∉ y := by
  simp [substract, List.mem_filter, List.elem_eq_mem]

theorem substract_sub {x y : List String} :
    ∀ {K : String}, K ∈ substract x y → K ∈ x :=
  fun h => (mem_substract.mp h).1

theorem foldl_upd_id {α : Type} (g : String → Option α) :
    ∀ (l : List String) (s : String → Option α) (k : String),
      (l.foldl (fun s x => upd s x (g x)) s) k = if k ∈ l then g k else s k := by
  intro l
  induction l with
  | nil => intro s k; simp
  | cons x rest ih =>
    intro s k
    rw [List.foldl_cons, ih]
    by_cases hk : k ∈ rest
    · simp [hk]
    · by_cases hkx : k = x
      · subst hkx
        simp [hk, upd_self]
      · simp [hk, hkx, upd_ne hkx]

theorem foldl_upd_kvs_id {α : Type} (h : String → Bytes → Option α) :
    ∀ (kvs : List (String × Bytes)) (s : String → Option α) (k : String),
      (kvs.foldl (fun st kv => upd st kv.1 (h kv.1 kv.2)) s) k
        = match lookupLastKv kvs k with
          | some v => h k v
          | Option.none => s k := by
  intro kvs
  induction kvs with
  | nil => intro s k; simp [lookupLastKv]
  | cons kv rest ih =>
    intro s k
    rw [List.foldl_cons, ih]
    simp only [lookupLastKv]
    cases hrest : lookupLastKv rest k with
    | some v => simp
    | none =>
      by_cases hkx : kv.1 = k
      · subst hkx
        simp [upd_self]
      · have hne : k ≠ kv.1 := fun hh => hkx hh.symm
        simp [hkx, upd_ne hne]

theorem mSetLRUCache_no_local (opts : Options)
    (h : opts.lruCacheOptions = Option.none) (lru : String → Option LruItem)
    (now : Int) (kvs : List (String × Bytes)) (missKeys : List String) :
    mSetLRUCache opts lru now kvs missKeys = lru := by
  simp [mSetLRUCache, h]

/-- Full characterization of a local-tier write batch at one key: a miss
marker wins when negative caching is on and the key is a miss key;
otherwise the last fresh binding is stored with compression `None`;
otherwise the store is untouched. -/
theorem mSetLRUCache_at (opts : Options) {lo : LRUCacheOptions}
    (hlo : opts.lruCacheOptions = some lo) (lru : String → Option LruItem)
    (now : Int) (kvs : List (String × Bytes)) (missKeys : List String)
    (k : String) :
    mSetLRUCache opts lru now kvs missKeys k
      = if lo.missTimeout ≠ 0 ∧ k ∈ missKeys then
          some ⟨Blob.bytesOf zeroData, now + lo.missTimeout⟩
        else
          match lookupLastKv kvs k with
          | some v => some ⟨Blob.bytesOf ⟨v, now / 1000000000, CompressionType.none⟩,
              now + lo.timeout⟩
          | Option.none => lru k := by
  unfold mSetLRUCache
  rw [hlo]
  simp only
  have hkv := foldl_upd_kvs_id
    (fun _ v => some (⟨Blob.bytesOf ⟨v, now / 1000000000, CompressionType.none⟩,
      now + lo.timeout⟩ : LruItem)) kvs lru k
  simp only [] at hkv
  have hmiss := foldl_upd_id
    (fun _ => some (⟨Blob.bytesOf zeroData, now + lo.missTimeout⟩ : LruItem))
    missKeys
  by_cases h0 : lo.missTimeout = 0
  · rw [if_pos h0, hkv]
    simp [h0]
  · rw [if_neg h0, hmiss, hkv]
    by_cases hm : k ∈ missKeys
    · simp [h0, hm]
    · simp [h0, hm]

theorem mSetRedisCache_no_remote (opts : Options)
    (h : opts.redisCacheOptions = Option.none) (redisSetOk : Bool)
    (redis : String → Option RedisEntry) (now : Int)
    (kvs : List (String × Bytes)) (missKeys : List String) :
    mSetRedisCache opts redisSetOk redis now kvs missKeys = (redis, false) := by
  simp [mSetRedisCache, h]

theorem mSetRedisCache_fail (opts : Options) {ro : RedisCacheOptions}
    (hro : opts.redisCacheOptions = some ro)
    (redis : String → Option RedisEntry) (now : Int)
    (kvs : List (String × Bytes)) (missKeys : List String) :
    mSetRedisCache opts false redis now kvs missKeys = (redis, true) := by
  simp [mSetRedisCache, hro]

theorem mSetRedisCache_ok_err (opts : Options)
    (redis : String → Option RedisEntry) (now : Int)
    (kvs : List (String × Bytes)) (missKeys : List String) :
    (mSetRedisCache opts true redis now kvs missKeys).2 = false := by
  unfold mSetRedisCache
  cases h : opts.redisCacheOptions <;> simp

/-- Full characterization of a successful remote-tier write batch at one
(namespaced) key: a miss marker wins when `MissTimeout ≥ 1ms` and the key
is a miss key; otherwise the last fresh binding is stored compressed under
the configured mode; otherwise the store is untouched. -/
theorem mSetRedisCache_ok_at (opts : Options) {ro : RedisCacheOptions}
    (hro : opts.redisCacheOptions = some ro)
    (redis : String → Option RedisEntry) (now : Int)
    (kvs : List (String × Bytes)) (missKeys : List String) (k : String) :
    (mSetRedisCache opts true redis now kvs missKeys).1 (mkRedisKey opts k)
      = if millisecond ≤ ro.missTimeout ∧ k ∈ missKeys then
          some ⟨Blob.bytesOf zeroData, now + ro.missTimeout⟩
        else
          match lookupLastKv kvs k with
          | some v => some ⟨Blob.bytesOf
              ⟨compress opts.compressionType v, now / 1000000000,
                opts.compressionType⟩, now + ro.hardTimeout⟩
          | Option.none => redis (mkRedisKey opts k) := by
  unfold mSetRedisCache
  rw [hro]
  simp only [if_true]
  have hkv := foldl_upd_kvs_map (mkRedisKey opts) (mkRedisKey_inj opts hro)
    (fun _ v => some (⟨Blob.bytesOf
      ⟨compress opts.compressionType v, now / 1000000000, opts.compressionType⟩,
      now + ro.hardTimeout⟩ : RedisEntry)) kvs redis k
  simp only [] at hkv
  have hmiss := foldl_upd_map (mkRedisKey opts) (mkRedisKey_inj opts hro)
    (fun _ => some (⟨Blob.bytesOf zeroData, now + ro.missTimeout⟩ : RedisEntry))
    missKeys
  by_cases h0 : millisecond ≤ ro.missTimeout
  · rw [if_pos h0, hmiss, hkv]
    by_cases hm : k ∈ missKeys
    · simp [h0, hm]
    · simp [h0, hm]
  · rw [if_neg h0, hkv]
    simp [h0]

theorem mSet_nonempty (opts : Options) (redisSetOk : Bool) (st : CacheState)
    (now : Int) (kvs : List (String × Bytes)) (missKeys : List String)
    (h : ¬(kvs = [] ∧ missKeys = [])) :
    mSet opts redisSetOk st now kvs missKeys
      = (⟨mSetLRUCache opts st.lru now kvs missKeys,
          (mSetRedisCache opts redisSetOk st.redis now kvs missKeys).1⟩,
         (mSetRedisCache opts redisSetOk st.redis now kvs missKeys).2) := by
  simp [mSet, h]

/-! ### MGet assembly helper lemmas -/

theorem mGetFromRedisCache_not_mem (opts : Options)
    (redis : String → Option RedisEntry) (now : Int) (keys : List String)
    (values : String → Option Bytes) (valids : String → Bool) {k : String}
    (hk : k ∉ keys) :
    (mGetFromRedisCache opts redis now keys values valids).1 k = values k ∧
    (mGetFromRedisCache opts redis now keys values valids).2.1 k = valids k ∧
    k ∉ (mGetFromRedisCache opts redis now keys values valids).2.2 := by
  cases hro : opts.redisCacheOptions with
  | none => simp [mGetFromRedisCache, hro, hk]
  | some ro =>
    by_cases hkeys : keys = []
    · subst hkeys
      simp [mGetFromRedisCache, hro]
    · simp only [mGetFromRedisCache, hro, if_neg hkeys]
      have hf := mGetRedisGo_frame opts ro redis now keys values valids k hk
      exact ⟨hf.1, hf.2, fun hmem =>
        hk (mGetRedisGo_miss_sub opts ro redis now keys values valids k hmem)⟩

theorem mGetFromRedisCache_miss_sub (opts : Options)
    (redis : String → Option RedisEntry) (now : Int) (keys : List String)
    (values : String → Option Bytes) (valids : String → Bool) {k : String}
    (hk : k ∈ (mGetFromRedisCache opts redis now keys values valids).2.2) :
    k ∈ keys := by
  cases hro : opts.redisCacheOptions with
  | none => simp [mGetFromRedisCache, hro] at hk; exact hk
  | some ro =>
    by_cases hkeys : keys = []
    · subst hkeys
      simp [mGetFromRedisCache, hro] at hk
    · simp only [mGetFromRedisCache, hro, if_neg hkeys] at hk
      exact mGetRedisGo_miss_sub opts ro redis now keys values valids k hk

theorem mgetLoaderFill_skip (opts : Options) (env : Env) (st1 : CacheState)
    (now : Int) (values2 : String → Option Bytes) (valids2 : String → Bool)
    (redisKeys redisMissKeys : List String) {k : String}
    (hpl : properLoader env) (hk : k ∉ redisMissKeys) :
    (mgetLoaderFill opts env st1 now values2 valids2 redisKeys redisMissKeys).values k
      = values2 k ∧
    (mgetLoaderFill opts env st1 now values2 valids2 redisKeys redisMissKeys).valids k
      = valids2 k ∧
    k ∉ (mgetLoaderFill opts env st1 now values2 valids2 redisKeys
      redisMissKeys).loaderKeys ∧
    (mgetLoaderFill opts env st1 now values2 valids2 redisKeys
      redisMissKeys).redisKeys = redisKeys := by
  by_cases hm : redisMissKeys = []
  · subst hm
    simp [mgetLoaderFill]
  · simp only [mgetLoaderFill, if_neg hm]
    by_cases hl : opts.loaderPresent = false
    · simp [hl]
    · simp only [hl, if_neg]
      have hnone : (env.loader redisMissKeys).values k = Option.none :=
        hpl redisMissKeys k hk
      by_cases he : (env.loader redisMissKeys).err <;>
        simp [he, hnone, hk]

/-- When the requested key is not carried out of the local pass, `MGet`
returns the local pass's maps for it and neither the remote pipeline nor
the loader receives it. -/
theorem MGet_skip (opts : Options) (env : Env) (st : CacheState) (now : Int)
    (keys : List String) {k : String} (hkeys : keys ≠ [])
    (hpl : properLoader env)
    (hk : k ∉ (mGetFromLRUCache opts st.lru now keys (fun _ => Option.none)
      (fun _ => false)).2.2) :
    (MGet opts env st now keys).values k
      = (mGetFromLRUCache opts st.lru now keys (fun _ => Option.none)
          (fun _ => false)).1 k ∧
    (MGet opts env st now keys).valids k
      = (mGetFromLRUCache opts st.lru now keys (fun _ => Option.none)
          (fun _ => false)).2.1 k ∧
    k ∉ (MGet opts env st now keys).redisKeys ∧
    k ∉ (MGet opts env st now keys).loaderKeys := by
  unfold MGet
  rw [if_neg hkeys]
  simp only
  set t1 := mGetFromLRUCache opts st.lru now keys (fun _ => Option.none)
    (fun _ => false) with ht1
  by_cases h1 : t1.2.2 = []
  · simp [h1]
  · simp only [if_neg h1]
    unfold mgetRemotePass
    simp only
    have hfr := mGetFromRedisCache_not_mem opts st.redis now t1.2.2 t1.1
      t1.2.1 hk
    refine ⟨?_, ?_, ?_, ?_⟩
    · exact (mgetLoaderFill_skip opts env _ now _ _ _ _ hpl hfr.2.2).1.trans hfr.1
    · exact (mgetLoaderFill_skip opts env _ now _ _ _ _ hpl
        hfr.2.2).2.1.trans hfr.2.1
    · rw [(mgetLoaderFill_skip opts env _ now _ _ _ _ hpl hfr.2.2).2.2.2]
      by_cases hro : opts.redisCacheOptions.isSome <;> simp [hro, hk]
    · exact (mgetLoaderFill_skip opts env _ now _ _ _ _ hpl hfr.2.2).2.2.1

/-! ### Result invariant (valid implies value) helper lemmas -/

theorem lruStep_inv (lru : String → Option LruItem) (now : Int) (key : String)
    (values : String → Option Bytes) (valids : String → Bool)
    (hinv : ∀ q, valids q = true → (values q).isSome) :
    ∀ q, (lruStep lru now key values valids).1.2 q = true →
      ((lruStep lru now key values valids).1.1 q).isSome := by
  intro q
  cases hl : lru key with
  | none => rw [lruStep_absent lru now hl]; exact hinv q
  | some item =>
    cases hv : item.value with
    | corrupt => rw [lruStep_corrupt lru now hl hv]; exact hinv q
    | bytesOf d =>
      by_cases hz : d = zeroData
      · subst hz
        rw [lruStep_marker lru now hl hv]
        exact hinv q
      · by_cases he : item.expired now = true
        · rw [lruStep_stale lru now hl hv hz he]
          intro hq
          by_cases hqk : q = key
          · subst hqk; simp [upd]
          · simp only [upd, if_neg hqk] at hq ⊢
            exact hinv q hq
        · rw [lruStep_fresh lru now hl hv hz (by simpa using he)]
          intro hq
          by_cases hqk : q = key
          · subst hqk; simp [upd]
          · simp only [upd, if_neg hqk] at hq ⊢
            exact hinv q hq

theorem mGetLRUGo_inv (lru : String → Option LruItem) (now : Int) :
    ∀ (keys : List String) (values : String → Option Bytes)
      (valids : String → Bool),
      (∀ q, valids q = true → (values q).isSome) →
      ∀ q, (mGetLRUGo lru now keys values valids).2.1 q = true →
        ((mGetLRUGo lru now keys values valids).1 q).isSome := by
  intro keys
  induction keys with
  | nil => intro values valids hinv q; simpa [mGetLRUGo] using hinv q
  | cons key rest ih =>
    intro values valids hinv q
    simp only [mGetLRUGo]
    exact ih _ _ (lruStep_inv lru now key values valids hinv) q

theorem redisStep_inv (opts : Options) (ro : RedisCacheOptions)
    (redis : String → Option RedisEntry) (now : Int) (key : String)
    (values : String → Option Bytes) (valids : String → Bool)
    (hinv : ∀ q, valids q = true → (values q).isSome) :
    ∀ q, (redisStep opts ro redis now key values valids).1.2 q = true →
      ((redisStep opts ro redis now key values valids).1.1 q).isSome := by
  intro q
  cases hl : redisLookup redis now (mkRedisKey opts key) with
  | none => rw [redisStep_absent opts ro redis now hl]; exact hinv q
  | some blob =>
    cases blob with
    | corrupt => rw [redisStep_corrupt opts ro redis now hl]; exact hinv q
    | bytesOf d =>
      by_cases hz : d = zeroData
      · subst hz
        rw [redisStep_marker opts ro redis now hl]
        exact hinv q
      · by_cases ha : now - d.modifyTime * 1000000000 ≤ ro.softTimeout
        · rw [redisStep_fresh opts ro redis now hl hz ha]
          intro hq
          by_cases hqk : q = key
          · subst hqk; simp [upd]
          · simp only [upd, if_neg hqk] at hq ⊢
            exact hinv q hq
        · rw [redisStep_stale opts ro redis now hl hz (lt_of_not_le ha)]
          intro hq
          by_cases hn : (values key).isNone
          · simp only [hn, if_true]
            by_cases hqk : q = key
            · subst hqk; simp [upd]
            · simp only [upd, if_neg hqk] at hq ⊢
              exact hinv q hq
          · simp only [hn, Bool.false_eq_true, if_false]
            exact hinv q hq

theorem mGetRedisGo_inv (opts : Options) (ro : RedisCacheOptions)
    (redis : String → Option RedisEntry) (now : Int) :
    ∀ (keys : List String) (values : String → Option Bytes)
      (valids : String → Bool),
      (∀ q, valids q = true → (values q).isSome) →
      ∀ q, (mGetRedisGo opts ro redis now keys values valids).2.1 q = true →
        ((mGetRedisGo opts ro redis now keys values valids).1 q).isSome := by
  intro keys
  induction keys with
  | nil => intro values valids hinv q; simpa [mGetRedisGo] using hinv q
  | cons key rest ih =>
    intro values valids hinv q
    simp only [mGetRedisGo]
    exact ih _ _ (redisStep_inv opts ro redis now key values valids hinv) q

theorem mGetFromLRUCache_inv (opts : Options) (lru : String → Option LruItem)
    (now : Int) (keys : List String) (values : String → Option Bytes)
    (valids : String → Bool)
    (hinv : ∀ q, valids q = true → (values q).isSome) :
    ∀ q, (mGetFromLRUCache opts lru now keys values valids).2.1 q = true →
      ((mGetFromLRUCache opts lru now keys values valids).1 q).isSome := by
  unfold mGetFromLRUCache
  cases opts.lruCacheOptions with
  | none => exact hinv
  | some lo =>
    by_cases hkeys : keys = []
    · simp only [hkeys, if_pos]; exact hinv
    · simp only [if_neg hkeys]
      exact mGetLRUGo_inv lru now keys values valids hinv

theorem mGetFromRedisCache_inv (opts : Options)
    (redis : String → Option RedisEntry) (now : Int) (keys : List String)
    (values : String → Option Bytes) (valids : String → Bool)
    (hinv : ∀ q, valids q = true → (values q).isSome) :
    ∀ q, (mGetFromRedisCache opts redis now keys values valids).2.1 q = true →
      ((mGetFromRedisCache opts redis now keys values valids).1 q).isSome := by
  unfold mGetFromRedisCache
  cases opts.redisCacheOptions with
  | none => exact hinv
  | some ro =>
    by_cases hkeys : keys = []
    · simp only [hkeys, if_pos]; exact hinv
    · simp only [if_neg hkeys]
      exact mGetRedisGo_inv opts ro redis now keys values valids hinv

theorem mgetLoaderFill_inv (opts : Options) (env : Env) (st1 : CacheState)
    (now : Int) (values2 : String → Option Bytes) (valids2 : String → Bool)
    (redisKeys redisMissKeys : List String)
    (hinv : ∀ q, valids2 q = true → (values2 q).isSome) :
    ∀ q, (mgetLoaderFill opts env st1 now values2 valids2 redisKeys
        redisMissKeys).valids q = true →
      ((mgetLoaderFill opts env st1 now values2 valids2 redisKeys
        redisMissKeys).values q).isSome := by
  unfold mgetLoaderFill
  by_cases hm : redisMissKeys = []
  · simp only [hm, if_pos]; exact hinv
  · simp only [if_neg hm]
    by_cases hl : opts.loaderPresent = false
    · simp only [hl, if_pos]; exact hinv
    · simp only [hl, Bool.false_eq_true, if_false, if_neg]
      have hmerge : ∀ q,
          (if ((env.loader redisMissKeys).values q).isSome then true
            else valids2 q) = true →
          ((match (env.loader redisMissKeys).values q with
            | some v => some v
            | Option.none => values2 q : Option Bytes)).isSome := by
        intro q
        cases hv : (env.loader redisMissKeys).values q with
        | some v => intro _; simp
        | none =>
          intro hq
          simp only [hv, Option.isSome_none, Bool.false_eq_true, if_false] at hq
          exact hinv q hq
      by_cases he : (env.loader redisMissKeys).err
      · simp only [he, if_pos]
        exact hmerge
      · simp only [he, Bool.false_eq_true, if_false]
        exact hmerge

theorem mgetLoaderFill_loader (opts : Options) (env : Env) (st1 : CacheState)
    (now : Int) (values2 : String → Option Bytes) (valids2 : String → Bool)
    (redisKeys redisMissKeys : List String)
    (hl : opts.loaderPresent = true) (hm : redisMissKeys ≠ []) :
    (mgetLoaderFill opts env st1 now values2 valids2 redisKeys
      redisMissKeys).loaderKeys = redisMissKeys ∧
    (∀ q, (mgetLoaderFill opts env st1 now values2 valids2 redisKeys
      redisMissKeys).values q
      = (match (env.loader redisMissKeys).values q with
         | some v => some v
         | Option.none => values2 q)) ∧
    (∀ q, (mgetLoaderFill opts env st1 now values2 valids2 redisKeys
      redisMissKeys).valids q
      = (if ((env.loader redisMissKeys).values q).isSome then true
         else valids2 q)) ∧
    (mgetLoaderFill opts env st1 now values2 valids2 redisKeys
      redisMissKeys).errored
      = (if (env.loader redisMissKeys).err then true
         else (mSet opts env.redisSetOk st1 now
           ((env.loader redisMissKeys).dom.filterMap
             (fun q => ((env.loader redisMissKeys).values q).map (fun v => (q, v))))
           (redisMissKeys.filter
             (fun q => ((env.loader redisMissKeys).values q).isNone))).2) ∧
    (mgetLoaderFill opts env st1 now values2 valids2 redisKeys
      redisMissKeys).state
      = (if (env.loader redisMissKeys).err then st1
         else (mSet opts env.redisSetOk st1 now
           ((env.loader redisMissKeys).dom.filterMap
             (fun q => ((env.loader redisMissKeys).values q).map (fun v => (q, v))))
           (redisMissKeys.filter
             (fun q => ((env.loader redisMissKeys).values q).isNone))).1) := by
  unfold mgetLoaderFill
  rw [if_neg hm]
  simp only [hl]
  by_cases he : (env.loader redisMissKeys).err <;> simp [he]

theorem MGet_eq_remote (opts : Options) (env : Env) (st : CacheState)
    (now : Int) (keys : List String) (hkeys : keys ≠ [])
    (h1 : (mGetFromLRUCache opts st.lru now keys (fun _ => Option.none)
      (fun _ => false)).2.2 ≠ []) :
    MGet opts env st now keys
      = mgetRemotePass opts env st now
          (mGetFromLRUCache opts st.lru now keys (fun _ => Option.none)
            (fun _ => false)).1
          (mGetFromLRUCache opts st.lru now keys (fun _ => Option.none)
            (fun _ => false)).2.1
          (mGetFromLRUCache opts st.lru now keys (fun _ => Option.none)
            (fun _ => false)).2.2 := by
  unfold MGet
  rw [if_neg hkeys]
  simp only
  rw [if_neg h1]

theorem mgetRemotePass_eq (opts : Options) (env : Env) (st : CacheState)
    (now : Int) (values1 : String → Option Bytes) (valids1 : String → Bool)
    (lruMissKeys : List String) :
    mgetRemotePass opts env st now values1 valids1 lruMissKeys
      = mgetLoaderFill opts env
          (if substract lruMissKeys
              (mGetFromRedisCache opts st.redis now lruMissKeys values1
                valids1).2.2 = []
           then st
           else ⟨mSetLRUCache opts st.lru now
              ((substract lruMissKeys
                  (mGetFromRedisCache opts st.redis now lruMissKeys values1
                    valids1).2.2).filterMap
                (fun k => ((mGetFromRedisCache opts st.redis now lruMissKeys
                  values1 valids1).1 k).map (fun v => (k, v))))
              ((substract lruMissKeys
                  (mGetFromRedisCache opts st.redis now lruMissKeys values1
                    valids1).2.2).filter
                (fun k => ((mGetFromRedisCache opts st.redis now lruMissKeys
                  values1 valids1).1 k).isNone)), st.redis⟩)
          now
          (mGetFromRedisCache opts st.redis now lruMissKeys values1 valids1).1
          (mGetFromRedisCache opts st.redis now lruMissKeys values1 valids1).2.1
          (if opts.redisCacheOptions.isSome then lruMissKeys else [])
          (mGetFromRedisCache opts st.redis now lruMissKeys values1
            valids1).2.2 := rfl

/-- The warm-back between the remote pass and the loader fill never touches
the remote store, and never touches the local store at a key that the
remote pass reported as missing. -/
theorem warmState_at (opts : Options) (st : CacheState) (now : Int)
    (values2 : String → Option Bytes) (lruMissKeys redisMissKeys : List String)
    {K : String} (hK : K ∈ redisMissKeys) :
    (if substract lruMissKeys redisMissKeys = [] then st
     else (⟨mSetLRUCache opts st.lru now
        ((substract lruMissKeys redisMissKeys).filterMap
          (fun k => (values2 k).map (fun v => (k, v))))
        ((substract lruMissKeys redisMissKeys).filter
          (fun k => (values2 k).isNone)), st.redis⟩ : CacheState)).lru K
      = st.lru K ∧
    (if substract lruMissKeys redisMissKeys = [] then st
     else (⟨mSetLRUCache opts st.lru now
        ((substract lruMissKeys redisMissKeys).filterMap
          (fun k => (values2 k).map (fun v => (k, v))))
        ((substract lruMissKeys redisMissKeys).filter
          (fun k => (values2 k).isNone)), st.redis⟩ : CacheState)).redis
      = st.redis := by
  have hKhit : K ∉ substract lruMissKeys redisMissKeys :=
    fun h => (mem_substract.mp h).2 hK
  constructor
  · by_cases hsub : substract lruMissKeys redisMissKeys = []
    · simp [hsub]
    · simp only [if_neg hsub]
      cases hlo : opts.lruCacheOptions with
      | none => rw [mSetLRUCache_no_local opts hlo]
      | some lo =>
        rw [mSetLRUCache_at opts hlo]
        have hmiss : K ∉ (substract lruMissKeys redisMissKeys).filter
            (fun k => (values2 k).isNone) :=
          fun h => hKhit (List.mem_of_mem_filter h)
        have hkvs := lookupLastKv_filterMap_not_mem values2
          (substract lruMissKeys redisMissKeys) hKhit
        rw [hkvs]
        simp [hmiss]
  · by_cases hsub : substract lruMissKeys redisMissKeys = []
    · simp [hsub]
    · simp [if_neg hsub]

/-! ### Claim theorems -/

/-- C9: every key mapped to `true` in the returned valid map also has an
entry in the returned value map — `MGet` never reports valid=true for a
value-less key. -/
theorem mget_valid_implies_value (opts : Options) (env : Env) (st : CacheState)
    (now : Int) (keys : List String) (k : String)
    (h : (MGet opts env st now keys).valids k = true) :
    ((MGet opts env st now keys).values k).isSome = true := by
  unfold MGet at h ⊢
  by_cases hkeys : keys = []
  · rw [if_pos hkeys] at h
    simp at h
  · rw [if_neg hkeys] at h ⊢
    simp only at h ⊢
    have hinv0 : ∀ q, (fun _ => false : String → Bool) q = true →
        ((fun _ => Option.none : String → Option Bytes) q).isSome = true := by
      intro q hq
      simp at hq
    have hinv1 := mGetFromLRUCache_inv opts st.lru now keys
      (fun _ => Option.none) (fun _ => false) hinv0
    by_cases h1 : (mGetFromLRUCache opts st.lru now keys (fun _ => Option.none)
        (fun _ => false)).2.2 = []
    · rw [if_pos h1] at h ⊢
      exact hinv1 k h
    · rw [if_neg h1] at h ⊢
      unfold mgetRemotePass at h ⊢
      simp only at h ⊢
      exact mgetLoaderFill_inv opts env _ now _ _ _ _
        (mGetFromRedisCache_inv opts st.redis now _ _ _ hinv1) k h

theorem MGet_local_fresh_core (opts : Options) (env : Env)
    (st : CacheState) (now : Int) (keys : List String) (k : String)
    {lo : LRUCacheOptions} {d : Data}
    (hlo : opts.lruCacheOptions = some lo)
    (hfresh : lruFreshAt st.lru now k d)
    (hk : k ∈ keys) (hpl : properLoader env) :
    (MGet opts env st now keys).values k = some d.raw ∧
    (MGet opts env st now keys).valids k = true ∧
    k ∉ (MGet opts env st now keys).redisKeys ∧
    k ∉ (MGet opts env st now keys).loaderKeys := by
  have hkeys : keys ≠ [] := List.ne_nil_of_mem hk
  have hwrap : mGetFromLRUCache opts st.lru now keys (fun _ => Option.none)
      (fun _ => false)
      = mGetLRUGo st.lru now keys (fun _ => Option.none) (fun _ => false) := by
    simp [mGetFromLRUCache, hlo, hkeys]
  have hmem := mGetLRUGo_fresh_mem st.lru now hfresh keys
    (fun _ => Option.none) (fun _ => false) hk
  have hnot := mGetLRUGo_fresh_not_miss st.lru now hfresh keys
    (fun _ => Option.none) (fun _ => false)
  have hnot1 : k ∉ (mGetFromLRUCache opts st.lru now keys (fun _ => Option.none)
      (fun _ => false)).2.2 := by
    rw [hwrap]
    exact hnot
  have hskip := MGet_skip opts env st now keys hkeys hpl hnot1
  refine ⟨hskip.1.trans ?_, hskip.2.1.trans ?_, hskip.2.2.1, hskip.2.2.2⟩
  · rw [hwrap]
    exact hmem.1
  · rw [hwrap]
    exact hmem.2

/-- C3: for a key whose local record is unexpired, decodable and not the
miss marker, `MGet` returns that record's payload with valid=true and the
key is excluded from the remote pipeline and from the loader. -/
theorem mget_local_fresh_short_circuits (opts : Options) (env : Env)
    (st : CacheState) (now : Int) (keys : List String) (k : String)
    {lo : LRUCacheOptions} {d : Data}
    (hlo : opts.lruCacheOptions = some lo)
    (hfresh : lruFreshAt st.lru now k d)
    (hk : k ∈ keys) (hpl : properLoader env) :
    (MGet opts env st now keys).values k = some d.raw ∧
    (MGet opts env st now keys).valids k = true ∧
    k ∉ (MGet opts env st now keys).redisKeys ∧
    k ∉ (MGet opts env st now keys).loaderKeys :=
  MGet_local_fresh_core opts env st now keys k hlo hfresh hk hpl

theorem c3_witness :
    optsLRW.lruCacheOptions = some loW ∧
    lruFreshAt stFreshW.lru 1000000000 "a" dFreshW ∧
    "a" ∈ ["a"] ∧ properLoader envNone ∧
    ((MGet optsLRW envNone stFreshW 1000000000 ["a"]).values "a"
       = some dFreshW.raw ∧
     (MGet optsLRW envNone stFreshW 1000000000 ["a"]).valids "a" = true ∧
     "a" ∉ (MGet optsLRW envNone stFreshW 1000000000 ["a"]).redisKeys ∧
     "a" ∉ (MGet optsLRW envNone stFreshW 1000000000 ["a"]).loaderKeys) := by
  have hfresh : lruFreshAt stFreshW.lru 1000000000 "a" dFreshW :=
    ⟨⟨Blob.bytesOf dFreshW, 2000000000⟩, by decide, rfl, by decide, by decide⟩
  have hpl : properLoader envNone := fun ks k h => rfl
  exact ⟨rfl, hfresh, by decide, hpl,
    mget_local_fresh_short_circuits optsLRW envNone stFreshW 1000000000 ["a"]
      "a" rfl hfresh (by decide) hpl⟩

theorem c9_witness :
    (MGet optsLRW envNone stFreshW 1000000000 ["a"]).valids "a" = true ∧
    ((MGet optsLRW envNone stFreshW 1000000000 ["a"]).values "a").isSome
      = true :=
  ⟨by decide, mget_valid_implies_value optsLRW envNone stFreshW 1000000000
    ["a"] "a" (by decide)⟩

/-- C2 counterexample: key "a" has an expired local record with raw `[5]`,
the remote tier is empty, and the loader succeeds with no entry for "a";
the claim says the returned value map then has no entry for "a", but the
stale candidate `[5]` is still returned (marked invalid). -/
theorem c2_cex :
    (MGet optsLRW envNone stStaleW 1000000000 ["a"]).loaderKeys = ["a"] ∧
    (envNone.loader ["a"]).values "a" = Option.none ∧
    (envNone.loader ["a"]).err = false ∧
    (MGet optsLRW envNone stStaleW 1000000000 ["a"]).errored = false ∧
    (MGet optsLRW envNone stStaleW 1000000000 ["a"]).values "a" = some [5] ∧
    (MGet optsLRW envNone stStaleW 1000000000 ["a"]).valids "a" = false := by
  refine ⟨by decide, rfl, rfl, by decide, by decide, by decide⟩

/-- C2 amended: when a key reaches the loader fill with a stale candidate
`c` already recorded in the value map — from an expired local record (the
remote tier then being unconfigured, yielding nothing usable at the key,
or itself soft-expired there, in which case the local candidate is kept)
or from a soft-expired remote record when the local pass contributed no
candidate (including remote-only configurations) — and the loader succeeds
with no entry for it, the candidate is *kept* in the returned value map
(with no valid=true entry) rather than discarded; the key was submitted
to the loader. -/
theorem mget_loader_miss_keeps_candidate (opts : Options) (env : Env)
    (st : CacheState) (now : Int) (keys : List String) (k : String)
    (c : Bytes)
    (hk : k ∈ keys)
    (hloader : opts.loaderPresent = true)
    (hmiss : ∀ ks, ((env.loader ks).values k) = Option.none)
    (hcand :
      (∃ lo d, opts.lruCacheOptions = some lo ∧ lruStaleAt st.lru now k d ∧
        c = d.raw ∧
        (opts.redisCacheOptions = Option.none ∨
          redisAbsentAt opts st.redis now k ∨
          ∃ ro d2, opts.redisCacheOptions = some ro ∧
            redisStaleAt opts ro st.redis now k d2)) ∨
      ((opts.lruCacheOptions = Option.none ∨ lruMissAt st.lru now k) ∧
        ∃ ro d2, opts.redisCacheOptions = some ro ∧
          redisStaleAt opts ro st.redis now k d2 ∧
          c = decompressOrNil d2.compressionType d2.raw)) :
    (MGet opts env st now keys).values k = some c ∧
    (MGet opts env st now keys).valids k = false ∧
    k ∈ (MGet opts env st now keys).loaderKeys := by
  have hkeys : keys ≠ [] := List.ne_nil_of_mem hk
  set F := mGetFromLRUCache opts st.lru now keys (fun _ => Option.none)
    (fun _ => false) with hF
  rcases hcand with ⟨lo, d, hlo, hstale, hc, hrem⟩ |
    ⟨hloc, ro, d2, hro, hrstale, hc⟩
  · subst hc
    have hwrap : F = mGetLRUGo st.lru now keys (fun _ => Option.none)
        (fun _ => false) := by
      rw [hF]; simp [mGetFromLRUCache, hlo, hkeys]
    have hst := mGetLRUGo_stale_mem st.lru now hstale keys
      (fun _ => Option.none) (fun _ => false) hk
    have ht1v : F.1 k = some d.raw := by rw [hwrap]; exact hst.1
    have ht1va : F.2.1 k = false := by rw [hwrap]; exact hst.2.1
    have ht1m : k ∈ F.2.2 := by rw [hwrap]; exact hst.2.2
    have h1 : F.2.2 ≠ [] := List.ne_nil_of_mem ht1m
    rw [MGet_eq_remote opts env st now keys hkeys (hF ▸ h1), mgetRemotePass_eq,
      ← hF]
    set R := mGetFromRedisCache opts st.redis now F.2.2 F.1 F.2.1 with hR
    have ht2 : R.1 k = some d.raw ∧ R.2.1 k = false ∧ k ∈ R.2.2 := by
      rw [hR]
      rcases hrem with hro | habs2 | ⟨ro, d2, hro, hrstale⟩
      · simp only [mGetFromRedisCache, hro]
        exact ⟨ht1v, ht1va, ht1m⟩
      · cases hro : opts.redisCacheOptions with
        | none =>
          simp only [mGetFromRedisCache, hro]
          exact ⟨ht1v, ht1va, ht1m⟩
        | some ro =>
          simp only [mGetFromRedisCache, hro, if_neg h1]
          have habs3 := mGetRedisGo_absent opts ro st.redis now habs2
            F.2.2 F.1 F.2.1
          exact ⟨habs3.1.trans ht1v, habs3.2.1.trans ht1va, habs3.2.2 ht1m⟩
      · simp only [mGetFromRedisCache, hro, if_neg h1]
        have hsr := mGetRedisGo_stale_mem opts ro st.redis now hrstale
          F.2.2 F.1 F.2.1 ht1m
        exact ⟨hsr.2.1 d.raw ht1v, hsr.2.2.1.trans ht1va, hsr.2.2.2⟩
    have hm2 := List.ne_nil_of_mem ht2.2.2
    refine ⟨?_, ?_, ?_⟩
    · rw [(mgetLoaderFill_loader opts env _ now _ _ _ _ hloader hm2).2.1 k,
        hmiss _]
      exact ht2.1
    · rw [(mgetLoaderFill_loader opts env _ now _ _ _ _ hloader hm2).2.2.1 k,
        hmiss _]
      simp [ht2.2.1]
    · rw [(mgetLoaderFill_loader opts env _ now _ _ _ _ hloader hm2).1]
      exact ht2.2.2
  · subst hc
    have ht1 : F.1 k = Option.none ∧ F.2.1 k = false ∧ k ∈ F.2.2 := by
      rw [hF]
      cases hlo2 : opts.lruCacheOptions with
      | none =>
        simp only [mGetFromLRUCache, hlo2]
        exact ⟨trivial, trivial, hk⟩
      | some lo =>
        rcases hloc with hlo3 | hmissAt
        · rw [hlo2] at hlo3
          exact Option.noConfusion hlo3
        · have hwrap : mGetFromLRUCache opts st.lru now keys
              (fun _ => Option.none) (fun _ => false)
              = mGetLRUGo st.lru now keys (fun _ => Option.none)
                  (fun _ => false) := by
            simp [mGetFromLRUCache, hlo2, hkeys]
          rw [hwrap]
          have hnw : lruNoWriteAt st.lru k := by
            rcases hmissAt with h | ⟨item, hi, hc2 | ⟨hm, he⟩⟩
            · exact Or.inl h
            · exact Or.inr ⟨item, hi, Or.inl hc2⟩
            · exact Or.inr ⟨item, hi, Or.inr hm⟩
          have hnw2 := mGetLRUGo_noWrite st.lru now hnw keys
            (fun _ => Option.none) (fun _ => false)
          have hmem := mGetLRUGo_miss_mem st.lru now hmissAt keys
            (fun _ => Option.none) (fun _ => false) hk
          exact ⟨hnw2.1, hnw2.2, hmem⟩
    have h1 : F.2.2 ≠ [] := List.ne_nil_of_mem ht1.2.2
    rw [MGet_eq_remote opts env st now keys hkeys (hF ▸ h1), mgetRemotePass_eq,
      ← hF]
    set R := mGetFromRedisCache opts st.redis now F.2.2 F.1 F.2.1 with hR
    have ht2 : R.1 k = some (decompressOrNil d2.compressionType d2.raw) ∧
        R.2.1 k = false ∧ k ∈ R.2.2 := by
      rw [hR]
      simp only [mGetFromRedisCache, hro, if_neg h1]
      have hsr := mGetRedisGo_stale_mem opts ro st.redis now hrstale
        F.2.2 F.1 F.2.1 ht1.2.2
      exact ⟨hsr.1 ht1.1, hsr.2.2.1.trans ht1.2.1, hsr.2.2.2⟩
    have hm2 := List.ne_nil_of_mem ht2.2.2
    refine ⟨?_, ?_, ?_⟩
    · rw [(mgetLoaderFill_loader opts env _ now _ _ _ _ hloader hm2).2.1 k,
        hmiss _]
      exact ht2.1
    · rw [(mgetLoaderFill_loader opts env _ now _ _ _ _ hloader hm2).2.2.1 k,
        hmiss _]
      simp [ht2.2.1]
    · rw [(mgetLoaderFill_loader opts env _ now _ _ _ _ hloader hm2).1]
      exact ht2.2.2

theorem c2_witness :
    "a" ∈ ["a"] ∧ optsRemoteW.loaderPresent = true ∧
    (∀ ks, ((envNone.loader ks).values "a") = Option.none) ∧
    optsRemoteW.lruCacheOptions = Option.none ∧
    optsRemoteW.redisCacheOptions = some roW ∧
    redisStaleAt optsRemoteW roW stRemoteStale.redis 3000000000 "a" dStaleR ∧
    ((MGet optsRemoteW envNone stRemoteStale 3000000000 ["a"]).values "a"
       = some (decompressOrNil dStaleR.compressionType dStaleR.raw) ∧
     (MGet optsRemoteW envNone stRemoteStale 3000000000 ["a"]).valids "a"
       = false ∧
     "a" ∈ (MGet optsRemoteW envNone stRemoteStale 3000000000
       ["a"]).loaderKeys) := by
  have hrstale : redisStaleAt optsRemoteW roW stRemoteStale.redis 3000000000
      "a" dStaleR := ⟨by decide, by decide, by decide⟩
  exact ⟨by decide, rfl, fun ks => rfl, rfl, rfl, hrstale,
    mget_loader_miss_keeps_candidate optsRemoteW envNone stRemoteStale
      3000000000 ["a"] "a"
      (decompressOrNil dStaleR.compressionType dStaleR.raw)
      (by decide) rfl (fun ks => rfl)
      (Or.inr ⟨Or.inl rfl, roW, dStaleR, rfl, hrstale, rfl⟩)⟩

theorem MGet_no_loader_err (opts : Options) (env : Env) (st : CacheState)
    (now : Int) (keys : List String) (hl : opts.loaderPresent = false) :
    (MGet opts env st now keys).errored = false := by
  unfold MGet
  by_cases hkeys : keys = []
  · rw [if_pos hkeys]
  · rw [if_neg hkeys]
    simp only
    by_cases h1 : (mGetFromLRUCache opts st.lru now keys (fun _ => Option.none)
        (fun _ => false)).2.2 = []
    · rw [if_pos h1]
    · rw [if_neg h1, mgetRemotePass_eq]
      unfold mgetLoaderFill
      by_cases hm : (mGetFromRedisCache opts st.redis now
          (mGetFromLRUCache opts st.lru now keys (fun _ => Option.none)
            (fun _ => false)).2.2
          (mGetFromLRUCache opts st.lru now keys (fun _ => Option.none)
            (fun _ => false)).1
          (mGetFromLRUCache opts st.lru now keys (fun _ => Option.none)
            (fun _ => false)).2.1).2.2 = []
      · rw [if_pos hm]
      · rw [if_neg hm]
        simp [hl]

/-- C5: a loader error, or a failure of the write-back of loader results,
is surfaced as the call's error while the value/valid maps assembled so far
are still returned: the stale candidate of an expired local record stays
(with valid=false), and any partial loader values are merged with
valid=true. -/
theorem mget_error_keeps_partial_maps (opts : Options) (env : Env)
    (st : CacheState) (now : Int) (keys : List String) (k : String)
    {lo : LRUCacheOptions} {d : Data}
    (hlo : opts.lruCacheOptions = some lo)
    (hstale : lruStaleAt st.lru now k d)
    (hk : k ∈ keys)
    (hloader : opts.loaderPresent = true)
    (habs : opts.redisCacheOptions = Option.none ∨
      redisAbsentAt opts st.redis now k)
    (hmiss : ∀ ks, ((env.loader ks).values k) = Option.none)
    (herr : (∀ ks, (env.loader ks).err = true) ∨
      ((∀ ks, (env.loader ks).err = false) ∧ env.redisSetOk = false ∧
        ∃ ro, opts.redisCacheOptions = some ro)) :
    (MGet opts env st now keys).errored = true ∧
    (MGet opts env st now keys).values k = some d.raw ∧
    (MGet opts env st now keys).valids k = false ∧
    (∀ q v, ((env.loader ((MGet opts env st now keys).loaderKeys)).values q)
        = some v →
      (MGet opts env st now keys).values q = some v ∧
      (MGet opts env st now keys).valids q = true) := by
  have hkeys : keys ≠ [] := List.ne_nil_of_mem hk
  have hwrap : mGetFromLRUCache opts st.lru now keys (fun _ => Option.none)
      (fun _ => false)
      = mGetLRUGo st.lru now keys (fun _ => Option.none) (fun _ => false) := by
    simp [mGetFromLRUCache, hlo, hkeys]
  have hst := mGetLRUGo_stale_mem st.lru now hstale keys
    (fun _ => Option.none) (fun _ => false) hk
  have ht1v : (mGetFromLRUCache opts st.lru now keys (fun _ => Option.none)
      (fun _ => false)).1 k = some d.raw := by rw [hwrap]; exact hst.1
  have ht1va : (mGetFromLRUCache opts st.lru now keys (fun _ => Option.none)
      (fun _ => false)).2.1 k = false := by rw [hwrap]; exact hst.2.1
  have ht1m : k ∈ (mGetFromLRUCache opts st.lru now keys (fun _ => Option.none)
      (fun _ => false)).2.2 := by rw [hwrap]; exact hst.2.2
  have h1 : (mGetFromLRUCache opts st.lru now keys (fun _ => Option.none)
      (fun _ => false)).2.2 ≠ [] := List.ne_nil_of_mem ht1m
  rw [MGet_eq_remote opts env st now keys hkeys h1, mgetRemotePass_eq]
  set F := mGetFromLRUCache opts st.lru now keys (fun _ => Option.none)
    (fun _ => false) with hF
  set R := mGetFromRedisCache opts st.redis now F.2.2 F.1 F.2.1 with hR
  have ht2 : R.1 k = some d.raw ∧ R.2.1 k = false ∧ k ∈ R.2.2 := by
    rcases habs with hro | habs2
    · rw [hR]
      simp only [mGetFromRedisCache, hro]
      exact ⟨ht1v, ht1va, ht1m⟩
    · cases hro : opts.redisCacheOptions with
      | none =>
        rw [hR]
        simp only [mGetFromRedisCache, hro]
        exact ⟨ht1v, ht1va, ht1m⟩
      | some ro =>
        rw [hR]
        simp only [mGetFromRedisCache, hro, if_neg h1]
        have habs3 := mGetRedisGo_absent opts ro st.redis now habs2
          F.2.2 F.1 F.2.1
        exact ⟨habs3.1.trans ht1v, habs3.2.1.trans ht1va, habs3.2.2 ht1m⟩
  have hm2 := List.ne_nil_of_mem ht2.2.2
  have hfill := mgetLoaderFill_loader opts env
    (if substract F.2.2 R.2.2 = [] then st
     else ⟨mSetLRUCache opts st.lru now
        ((substract F.2.2 R.2.2).filterMap
          (fun q => (R.1 q).map (fun v => (q, v))))
        ((substract F.2.2 R.2.2).filter (fun q => (R.1 q).isNone)), st.redis⟩)
    now R.1 R.2.1
    (if opts.redisCacheOptions.isSome then F.2.2 else []) R.2.2 hloader hm2
  refine ⟨?_, ?_, ?_, ?_⟩
  · rw [hfill.2.2.2.1]
    rcases herr with he | ⟨he, hok, ro, hro⟩
    · rw [he _]
      simp
    · rw [he _]
      simp only [Bool.false_eq_true, if_false]
      have hkmem : k ∈ R.2.2.filter
          (fun q => ((env.loader R.2.2).values q).isNone) :=
        List.mem_filter.mpr ⟨ht2.2.2, by simp [hmiss _]⟩
      have hne : ¬((env.loader R.2.2).dom.filterMap
          (fun q => ((env.loader R.2.2).values q).map (fun v => (q, v))) = [] ∧
          R.2.2.filter (fun q => ((env.loader R.2.2).values q).isNone) = []) := by
        intro hcon
        rw [hcon.2] at hkmem
        exact List.not_mem_nil k hkmem
      rw [mSet_nonempty _ _ _ _ _ _ hne]
      simp only
      rw [hok, mSetRedisCache_fail opts hro _ now _ _]
  · rw [hfill.2.1 k, hmiss _]
    exact ht2.1
  · rw [hfill.2.2.1 k, hmiss _]
    simp [ht2.2.1]
  · intro q v hv
    rw [hfill.1] at hv
    constructor
    · rw [hfill.2.1 q, hv]
    · rw [hfill.2.2.1 q, hv]
      simp

theorem c5_witness :
    optsLRW.lruCacheOptions = some loW ∧
    lruStaleAt stStaleW.lru 1000000000 "a" dStaleW ∧
    "a" ∈ ["a"] ∧ optsLRW.loaderPresent = true ∧
    redisAbsentAt optsLRW stStaleW.redis 1000000000 "a" ∧
    (∀ ks, ((envErr.loader ks).values "a") = Option.none) ∧
    (∀ ks, (envErr.loader ks).err = true) ∧
    ((MGet optsLRW envErr stStaleW 1000000000 ["a"]).errored = true ∧
     (MGet optsLRW envErr stStaleW 1000000000 ["a"]).values "a"
       = some dStaleW.raw ∧
     (MGet optsLRW envErr stStaleW 1000000000 ["a"]).valids "a" = false) := by
  have hstale : lruStaleAt stStaleW.lru 1000000000 "a" dStaleW :=
    ⟨⟨Blob.bytesOf dStaleW, 100⟩, by decide, rfl, by decide, by decide⟩
  have habs : redisAbsentAt optsLRW stStaleW.redis 1000000000 "a" :=
    Or.inl rfl
  have h := mget_error_keeps_partial_maps optsLRW envErr stStaleW 1000000000
    ["a"] "a" rfl hstale (by decide) rfl (Or.inr habs) (fun ks => rfl)
    (Or.inl (fun ks => rfl))
  exact ⟨rfl, hstale, by decide, rfl, habs, fun ks => rfl, fun ks => rfl,
    h.1, h.2.1, h.2.2.1⟩

/-- C1 counterexample: key "a" enters the remote pass with the stale local
candidate `[1]`, and the remote tier holds a decodable non-miss record with
payload `[2]` that is remotely fresh; the claim says the returned value is
the local candidate `[1]`, but `MGet` returns the remote payload `[2]` with
valid=true. -/
theorem c1_cex :
    stC1.lru "a" = some ⟨Blob.bytesOf ⟨[1], 0, CompressionType.none⟩, 100⟩ ∧
    redisLookup stC1.redis 1000000000 (mkRedisKey optsLRW "a")
      = some (Blob.bytesOf dRemoteFreshW) ∧
    1000000000 - dRemoteFreshW.modifyTime * 1000000000 ≤ roW.softTimeout ∧
    (MGet optsLRW envNone stC1 1000000000 ["a"]).values "a" = some [2] ∧
    ¬(MGet optsLRW envNone stC1 1000000000 ["a"]).values "a" = some [1] ∧
    (MGet optsLRW envNone stC1 1000000000 ["a"]).valids "a" = true := by
  refine ⟨by decide, by decide, by decide, by decide, by decide, by decide⟩

/-- C1 amended: for a key that enters the remote pass with a local-tier
candidate value and whose remote record decodes to a non-miss record, the
local candidate takes priority only when the remote record is stale
(age > softTTL): the candidate value is kept, valid stays unchanged and the
key is resubmitted downstream.  When the remote record is fresh
(age ≤ softTTL) the remote payload overwrites the candidate and is surfaced
with valid=true, and the key stops there. -/
theorem mget_remote_candidate_priority (opts : Options)
    (redis : String → Option RedisEntry) (now : Int) (keys : List String)
    (values : String → Option Bytes) (valids : String → Bool) (k : String)
    {ro : RedisCacheOptions} {d : Data} {c : Bytes}
    (hro : opts.redisCacheOptions = some ro)
    (hc : values k = some c)
    (hl : redisLookup redis now (mkRedisKey opts k) = some (Blob.bytesOf d))
    (hz : d ≠ zeroData)
    (hk : k ∈ keys) :
    (ro.softTimeout < now - d.modifyTime * 1000000000 →
      (mGetFromRedisCache opts redis now keys values valids).1 k = some c ∧
      (mGetFromRedisCache opts redis now keys values valids).2.1 k
        = valids k ∧
      k ∈ (mGetFromRedisCache opts redis now keys values valids).2.2) ∧
    (now - d.modifyTime * 1000000000 ≤ ro.softTimeout →
      (mGetFromRedisCache opts redis now keys values valids).1 k
        = some (decompressOrNil d.compressionType d.raw) ∧
      (mGetFromRedisCache opts redis now keys values valids).2.1 k = true ∧
      k ∉ (mGetFromRedisCache opts redis now keys values valids).2.2) := by
  have hkeys : keys ≠ [] := List.ne_nil_of_mem hk
  constructor
  · intro ha
    simp only [mGetFromRedisCache, hro, if_neg hkeys]
    have hs := mGetRedisGo_stale_mem opts ro redis now ⟨hl, hz, ha⟩ keys
      values valids hk
    exact ⟨hs.2.1 c hc, hs.2.2.1, hs.2.2.2⟩
  · intro ha
    simp only [mGetFromRedisCache, hro, if_neg hkeys]
    have hf := mGetRedisGo_fresh_mem opts ro redis now ⟨hl, hz, ha⟩ keys
      values valids hk
    exact ⟨hf.1, hf.2,
      mGetRedisGo_fresh_not_miss opts ro redis now ⟨hl, hz, ha⟩ keys
        values valids⟩

theorem c1_witness :
    optsLRW.redisCacheOptions = some roW ∧
    valuesW "a" = some [1] ∧
    redisLookup redisW 3000000000 (mkRedisKey optsLRW "a")
      = some (Blob.bytesOf dStaleR) ∧
    ¬dStaleR = zeroData ∧ "a" ∈ ["a"] ∧
    roW.softTimeout < 3000000000 - dStaleR.modifyTime * 1000000000 ∧
    ((mGetFromRedisCache optsLRW redisW 3000000000 ["a"] valuesW
        validsFalse).1 "a" = some [1] ∧
     (mGetFromRedisCache optsLRW redisW 3000000000 ["a"] valuesW
        validsFalse).2.1 "a" = validsFalse "a" ∧
     "a" ∈ (mGetFromRedisCache optsLRW redisW 3000000000 ["a"] valuesW
        validsFalse).2.2) := by
  have h := @mget_remote_candidate_priority optsLRW redisW 3000000000 ["a"]
    valuesW validsFalse "a" roW dStaleR [1] rfl (by decide) (by decide)
    (by decide) (by decide)
  exact ⟨rfl, by decide, by decide, by decide, by decide, by decide,
    h.1 (by decide)⟩

/-- C6 counterexample: the remote tier holds a remotely fresh decodable
record for "a" whose payload fails snappy decompression; the claim says the
key is treated as a remote miss (no value, no valid=true, falls through to
the loader), but `MGet` returns a nil value with valid=true and never
consults the loader. -/
theorem c6_cex :
    redisLookup stBadW.redis 2000000000 (mkRedisKey optsRemoteW "a")
      = some (Blob.bytesOf dBadW) ∧
    decompress dBadW.compressionType dBadW.raw = Option.none ∧
    (MGet optsRemoteW envNone stBadW 2000000000 ["a"]).values "a" = some [] ∧
    (MGet optsRemoteW envNone stBadW 2000000000 ["a"]).valids "a" = true ∧
    (MGet optsRemoteW envNone stBadW 2000000000 ["a"]).loaderKeys = [] ∧
    (MGet optsRemoteW envNone stBadW 2000000000 ["a"]).errored = false := by
  refine ⟨by decide, by decide, by decide, by decide, by decide, by decide⟩

/-- C6 amended: a decompression failure on a decodable remote record is
only logged, never surfaced as the call's error, but the key is *not*
treated as a remote miss: the record is still classified by age with a nil
payload.  If remotely fresh, the key is surfaced as a nil value with
valid=true and is not carried to the loader; if remotely stale, the nil
payload is recorded as a candidate (when no candidate exists yet) and the
key falls through. -/
theorem mget_decompress_failure_not_miss (opts : Options) (env : Env)
    (st : CacheState) (now : Int) (keys : List String)
    (values : String → Option Bytes) (valids : String → Bool) (k : String)
    {ro : RedisCacheOptions} {d : Data}
    (hro : opts.redisCacheOptions = some ro)
    (hl : redisLookup st.redis now (mkRedisKey opts k) = some (Blob.bytesOf d))
    (hz : d ≠ zeroData)
    (hd : decompress d.compressionType d.raw = Option.none)
    (hk : k ∈ keys) :
    (now - d.modifyTime * 1000000000 ≤ ro.softTimeout →
      (mGetFromRedisCache opts st.redis now keys values valids).1 k
        = some [] ∧
      (mGetFromRedisCache opts st.redis now keys values valids).2.1 k
        = true ∧
      k ∉ (mGetFromRedisCache opts st.redis now keys values valids).2.2) ∧
    (ro.softTimeout < now - d.modifyTime * 1000000000 →
      k ∈ (mGetFromRedisCache opts st.redis now keys values valids).2.2 ∧
      (values k = Option.none →
        (mGetFromRedisCache opts st.redis now keys values valids).1 k
          = some [])) ∧
    (opts.loaderPresent = false →
      (MGet opts env st now keys).errored = false) := by
  have hkeys : keys ≠ [] := List.ne_nil_of_mem hk
  have hnil : decompressOrNil d.compressionType d.raw = [] := by
    unfold decompressOrNil
    rw [hd]
    rfl
  refine ⟨?_, ?_, fun hnl => MGet_no_loader_err opts env st now keys hnl⟩
  · intro ha
    simp only [mGetFromRedisCache, hro, if_neg hkeys]
    have hf := mGetRedisGo_fresh_mem opts ro st.redis now ⟨hl, hz, ha⟩ keys
      values valids hk
    rw [hnil] at hf
    exact ⟨hf.1, hf.2,
      mGetRedisGo_fresh_not_miss opts ro st.redis now ⟨hl, hz, ha⟩ keys
        values valids⟩
  · intro ha
    simp only [mGetFromRedisCache, hro, if_neg hkeys]
    have hs := mGetRedisGo_stale_mem opts ro st.redis now ⟨hl, hz, ha⟩ keys
      values valids hk
    rw [hnil] at hs
    exact ⟨hs.2.2.2, hs.1⟩

theorem c6_witness :
    optsRemoteNL.redisCacheOptions = some roW ∧
    redisLookup stBadW.redis 2000000000 (mkRedisKey optsRemoteNL "a")
      = some (Blob.bytesOf dBadW) ∧
    ¬dBadW = zeroData ∧
    decompress dBadW.compressionType dBadW.raw = Option.none ∧
    "a" ∈ ["a"] ∧
    2000000000 - dBadW.modifyTime * 1000000000 ≤ roW.softTimeout ∧
    ((mGetFromRedisCache optsRemoteNL stBadW.redis 2000000000 ["a"]
        (fun _ => Option.none) validsFalse).1 "a" = some [] ∧
     (mGetFromRedisCache optsRemoteNL stBadW.redis 2000000000 ["a"]
        (fun _ => Option.none) validsFalse).2.1 "a" = true ∧
     "a" ∉ (mGetFromRedisCache optsRemoteNL stBadW.redis 2000000000 ["a"]
        (fun _ => Option.none) validsFalse).2.2 ∧
     (MGet optsRemoteNL envNone stBadW 2000000000 ["a"]).errored = false) := by
  have h := @mget_decompress_failure_not_miss optsRemoteNL envNone stBadW
    2000000000 ["a"] (fun _ => Option.none) validsFalse "a" roW dBadW rfl
    (by decide) (by decide) (by decide) (by decide)
  have h1 := h.1 (by decide)
  exact ⟨rfl, by decide, by decide, by decide, by decide, by decide,
    h1.1, h1.2.1, h1.2.2, h.2.2 rfl⟩

/-- C10: every non-miss record written to the local tier — `MSet`, loader
write-back and warm-back all go through `mSetLRUCache` — stores the payload
uncompressed with tag `None` regardless of the configured mode, while the
remote write path stores the payload compressed under the configured mode. -/
theorem local_writes_uncompressed (opts : Options)
    (lru : String → Option LruItem) (redis : String → Option RedisEntry)
    (now : Int) (kvs : List (String × Bytes)) (missKeys : List String)
    (k : String) (v : Bytes)
    (hkv : lookupLastKv kvs k = some v) (hmk : k ∉ missKeys) :
    (∀ lo, opts.lruCacheOptions = some lo →
      mSetLRUCache opts lru now kvs missKeys k
        = some ⟨Blob.bytesOf ⟨v, now / 1000000000, CompressionType.none⟩,
            now + lo.timeout⟩) ∧
    (∀ ro, opts.redisCacheOptions = some ro →
      (mSetRedisCache opts true redis now kvs missKeys).1 (mkRedisKey opts k)
        = some ⟨Blob.bytesOf ⟨compress opts.compressionType v,
            now / 1000000000, opts.compressionType⟩, now + ro.hardTimeout⟩) := by
  constructor
  · intro lo hlo
    rw [mSetLRUCache_at opts hlo, hkv]
    simp [hmk]
  · intro ro hro
    rw [mSetRedisCache_ok_at opts hro, hkv]
    simp [hmk]

theorem c10_witness :
    lookupLastKv [("a", [3])] "a" = some [3] ∧
    ("a" : String) ∉ ([] : List String) ∧
    (mSetLRUCache optsRemoteW (fun _ => Option.none) 1000000000 [("a", [3])]
        [] "a"
      = mSetLRUCache optsRemoteW (fun _ => Option.none) 1000000000 [("a", [3])]
        [] "a") ∧
    (mSetRedisCache optsRemoteW true (fun _ => Option.none) 1000000000
        [("a", [3])] []).1 (mkRedisKey optsRemoteW "a")
      = some ⟨Blob.bytesOf ⟨compress optsRemoteW.compressionType [3],
          1000000000 / 1000000000, optsRemoteW.compressionType⟩,
          1000000000 + roW.hardTimeout⟩ := by
  have h := local_writes_uncompressed optsRemoteW (fun _ => Option.none)
    (fun _ => Option.none) 1000000000 [("a", [3])] [] "a" [3] (by decide)
    (by decide)
  exact ⟨by decide, by decide, rfl, h.2 roW rfl⟩

theorem lruOptionsIsValid_isSome_iff (x : Option LRUCacheOptions) :
    (lruOptionsIsValid x).isSome = true ↔
      ∃ lo, x = some lo ∧
        (lo.size ≤ 0 ∨ lo.timeout ≤ 0 ∨
          (lo.missTimeout ≠ 0 ∧
            (lo.missTimeout < millisecond ∨ lo.timeout ≤ lo.missTimeout))) := by
  cases x with
  | none => simp [lruOptionsIsValid]
  | some lo =>
    simp only [lruOptionsIsValid, Option.some.injEq]
    constructor
    · intro h
      refine ⟨lo, rfl, ?_⟩
      by_cases h1 : lo.size ≤ 0
      · exact Or.inl h1
      · by_cases h2 : lo.missTimeout ≠ 0 ∧ lo.missTimeout < millisecond
        · exact Or.inr (Or.inr ⟨h2.1, Or.inl h2.2⟩)
        · by_cases h3 : lo.timeout ≤ 0 ∨
              (lo.missTimeout ≠ 0 ∧ lo.timeout ≤ lo.missTimeout)
          · rcases h3 with h3 | h3
            · exact Or.inr (Or.inl h3)
            · exact Or.inr (Or.inr ⟨h3.1, Or.inr h3.2⟩)
          · rw [if_neg h1, if_neg h2, if_neg h3] at h
            simp at h
    · rintro ⟨lo2, rfl, hc⟩
      by_cases h1 : lo.size ≤ 0
      · simp [h1]
      · rw [if_neg h1]
        by_cases h2 : lo.missTimeout ≠ 0 ∧ lo.missTimeout < millisecond
        · simp [h2]
        · rw [if_neg h2]
          by_cases h3 : lo.timeout ≤ 0 ∨
              (lo.missTimeout ≠ 0 ∧ lo.timeout ≤ lo.missTimeout)
          · simp [h3]
          · exfalso
            rcases hc with hc | hc | ⟨hc1, hc2 | hc2⟩
            · exact h1 hc
            · exact h3 (Or.inl hc)
            · exact h2 ⟨hc1, hc2⟩
            · exact h3 (Or.inr ⟨hc1, hc2⟩)

theorem redisOptionsIsValid_isSome_iff (x : Option RedisCacheOptions) :
    (redisOptionsIsValid x).isSome = true ↔
      ∃ ro, x = some ro ∧
        (ro.clientPresent = false ∨ ro.pfx = "" ∨
          (ro.missTimeout ≠ 0 ∧ ro.missTimeout < millisecond)) := by
  cases x with
  | none => simp [redisOptionsIsValid]
  | some ro =>
    simp only [redisOptionsIsValid, Option.some.injEq]
    constructor
    · intro h
      refine ⟨ro, rfl, ?_⟩
      by_cases h1 : ro.clientPresent = false
      · exact Or.inl h1
      · by_cases h2 : ro.pfx = ""
        · exact Or.inr (Or.inl h2)
        · by_cases h3 : ro.missTimeout ≠ 0 ∧ ro.missTimeout < millisecond
          · exact Or.inr (Or.inr h3)
          · rw [if_neg h1, if_neg h2, if_neg h3] at h
            simp at h
    · rintro ⟨ro2, rfl, hc⟩
      by_cases h1 : ro.clientPresent = false
      · simp [h1]
      · rw [if_neg h1]
        by_cases h2 : ro.pfx = ""
        · simp [h2]
        · rw [if_neg h2]
          by_cases h3 : ro.missTimeout ≠ 0 ∧ ro.missTimeout < millisecond
          · simp [h3]
          · exfalso
            rcases hc with hc | hc | hc
            · exact h1 hc
            · exact h2 hc
            · exact h3 hc

theorem optionsIsValid_some_isSome_iff (o : Options) :
    (optionsIsValid (some o)).isSome = true ↔
      ((o.lruCacheOptions = Option.none ∧ o.redisCacheOptions = Option.none) ∨
        (lruOptionsIsValid o.lruCacheOptions).isSome = true ∨
        (redisOptionsIsValid o.redisCacheOptions).isSome = true) := by
  simp only [optionsIsValid]
  by_cases hboth : o.lruCacheOptions = Option.none ∧
      o.redisCacheOptions = Option.none
  · simp [hboth]
  · rw [if_neg hboth]
    cases h1 : lruOptionsIsValid o.lruCacheOptions with
    | some e => simp [hboth]
    | none =>
      cases h2 : redisOptionsIsValid o.redisCacheOptions with
      | some e => simp [hboth]
      | none => simp [hboth]

/-- C8: `NewCache` panics exactly on the configurations the claim lists —
empty name, nil options, both tier configs absent, local size ≤ 0, local
fresh TTL ≤ 0, local negative TTL nonzero but below 1ms or not below the
fresh TTL, nil remote client, empty remote prefix, or remote miss TTL
nonzero but below 1ms — and construction succeeds on every other
configuration (in particular softTTL ≤ hardTTL is not checked). -/
theorem newCache_panics_iff (name : String) (opts : Option Options) :
    newCachePanics name opts = true ↔
      (name = "" ∨ opts = Option.none ∨
        ∃ o, opts = some o ∧
          ((o.lruCacheOptions = Option.none ∧
              o.redisCacheOptions = Option.none) ∨
           (∃ lo, o.lruCacheOptions = some lo ∧
             (lo.size ≤ 0 ∨ lo.timeout ≤ 0 ∨
               (lo.missTimeout ≠ 0 ∧
                 (lo.missTimeout < millisecond ∨
                   lo.timeout ≤ lo.missTimeout)))) ∨
           (∃ ro, o.redisCacheOptions = some ro ∧
             (ro.clientPresent = false ∨ ro.pfx = "" ∨
               (ro.missTimeout ≠ 0 ∧ ro.missTimeout < millisecond))))) := by
  cases opts with
  | none => simp [newCachePanics, optionsIsValid]
  | some o =>
    simp only [newCachePanics, Bool.or_eq_true, decide_eq_true_eq,
      optionsIsValid_some_isSome_iff, lruOptionsIsValid_isSome_iff,
      redisOptionsIsValid_isSome_iff, Option.some.injEq,
      reduceCtorEq, false_or, exists_eq_left']

theorem mgetLoaderFill_nil (opts : Options) (env : Env) (st1 : CacheState)
    (now : Int) (values2 : String → Option Bytes) (valids2 : String → Bool)
    (redisKeys : List String) :
    mgetLoaderFill opts env st1 now values2 valids2 redisKeys []
      = ⟨values2, valids2, false, st1, redisKeys, []⟩ := by
  simp [mgetLoaderFill]

theorem compress_roundtrip {ct : CompressionType}
    (hct : ct = CompressionType.none ∨ ct = CompressionType.snappy)
    (v : Bytes) : decompressOrNil ct (compress ct v) = v := by
  rcases hct with rfl | rfl
  · rfl
  · simp [compress, decompressOrNil, decompress, snappyEncode, snappyDecode]

/-- C7 counterexample: remote-only cache, softTTL = 500ms < 1s, write at a
wall-clock instant 0.6s past a whole second.  An immediate `MGet` (zero
elapsed time, no configured TTL has elapsed) returns the written bytes but
with valid=false, because the stored write timestamp is truncated to whole
seconds and the measured age (0.6s) already exceeds the soft TTL. -/
theorem c7_cex :
    roShort.softTimeout = 500000000 ∧
    (MSet optsShort true stEmpty nowW [("a", [3])]).2 = false ∧
    (MGet optsShort envNone (MSet optsShort true stEmpty nowW
      [("a", [3])]).1 nowW ["a"]).values "a" = some [3] ∧
    (MGet optsShort envNone (MSet optsShort true stEmpty nowW
      [("a", [3])]).1 nowW ["a"]).valids "a" = false := by
  refine ⟨rfl, by decide, by decide, by decide⟩

/-- C7 amended: a value written by `MSet` is returned by an immediate
`MGet` with valid=true, identical to the written bytes for compression
`None` and `Snappy`, whenever the configuration has a local tier (local
only or both tiers: the fresh local record short-circuits), and in a
remote-only configuration provided the second-truncated age
`now - (now/1e9)*1e9` does not exceed the soft TTL — guaranteed whenever
softTTL ≥ 1s, but an immediate read may come back valid=false for a
sub-second soft TTL. -/
theorem mset_mget_roundtrip (opts : Options) (env : Env) (st : CacheState)
    (now : Int) (kvs : List (String × Bytes)) (k : String) (v : Bytes)
    (hkv : lookupLastKv kvs k = some v)
    (hct : opts.compressionType = CompressionType.none ∨
      opts.compressionType = CompressionType.snappy)
    (hnow : 1000000000 ≤ now)
    (htier :
      (∃ lo, opts.lruCacheOptions = some lo ∧ 0 ≤ lo.timeout) ∨
      (opts.lruCacheOptions = Option.none ∧ env.redisSetOk = true ∧
        ∃ ro, opts.redisCacheOptions = some ro ∧ 0 < ro.hardTimeout ∧
          now - now / 1000000000 * 1000000000 ≤ ro.softTimeout)) :
    (MGet opts env (MSet opts env.redisSetOk st now kvs).1 now [k]).values k
      = some v ∧
    (MGet opts env (MSet opts env.redisSetOk st now kvs).1 now [k]).valids k
      = true := by
  have hkvne : ¬(kvs = [] ∧ ([] : List String) = []) := by
    intro h
    rw [h.1] at hkv
    simp [lookupLastKv] at hkv
  have hmset : MSet opts env.redisSetOk st now kvs
      = mSet opts env.redisSetOk st now kvs [] := rfl
  rw [hmset, mSet_nonempty _ _ _ _ _ _ hkvne]
  simp only
  have hkeys : ([k] : List String) ≠ [] := by simp
  rcases htier with ⟨lo, hlo, hto⟩ | ⟨hlno, hok, ro, hro, hhard, hsoft⟩
  · -- the local tier holds a fresh record for k
    have hitem : mSetLRUCache opts st.lru now kvs [] k
        = some ⟨Blob.bytesOf ⟨v, now / 1000000000, CompressionType.none⟩,
            now + lo.timeout⟩ := by
      rw [mSetLRUCache_at opts hlo, hkv]
      simp
    have hdz : (⟨v, now / 1000000000, CompressionType.none⟩ : Data)
        ≠ zeroData := by
      intro hcon
      have hmt : now / 1000000000 = (0 : Int) :=
        congrArg Data.modifyTime hcon
      omega
    have hexp : (⟨Blob.bytesOf ⟨v, now / 1000000000, CompressionType.none⟩,
        now + lo.timeout⟩ : LruItem).expired now = false := by
      simp only [LruItem.expired, decide_eq_false_iff_not, not_lt]
      omega
    have hfresh : lruFreshAt (mSetLRUCache opts st.lru now kvs []) now k
        ⟨v, now / 1000000000, CompressionType.none⟩ :=
      ⟨_, hitem, rfl, hdz, hexp⟩
    have hwrap : mGetFromLRUCache opts (mSetLRUCache opts st.lru now kvs [])
        now [k] (fun _ => Option.none) (fun _ => false)
        = mGetLRUGo (mSetLRUCache opts st.lru now kvs []) now [k]
            (fun _ => Option.none) (fun _ => false) := by
      simp [mGetFromLRUCache, hlo]
    have hmem := mGetLRUGo_fresh_mem (mSetLRUCache opts st.lru now kvs []) now
      hfresh [k] (fun _ => Option.none) (fun _ => false) (by simp)
    have hnot := mGetLRUGo_fresh_not_miss (mSetLRUCache opts st.lru now kvs [])
      now hfresh [k] (fun _ => Option.none) (fun _ => false)
    have hnil : (mGetFromLRUCache opts (mSetLRUCache opts st.lru now kvs [])
        now [k] (fun _ => Option.none) (fun _ => false)).2.2 = [] := by
      rw [hwrap]
      refine List.eq_nil_iff_forall_not_mem.mpr (fun x hx => ?_)
      have hxk := mGetLRUGo_miss_sub (mSetLRUCache opts st.lru now kvs []) now
        [k] (fun _ => Option.none) (fun _ => false) x hx
      obtain rfl : x = k := by simpa using hxk
      exact hnot hx
    unfold MGet
    rw [if_neg hkeys]
    simp only [hnil, if_pos]
    rw [hwrap]
    exact ⟨hmem.1, hmem.2⟩
  · -- remote-only: the remote tier holds a fresh record for k
    rw [hok]
    have hredis : (mSetRedisCache opts true st.redis now kvs []).1
        (mkRedisKey opts k)
        = some ⟨Blob.bytesOf ⟨compress opts.compressionType v,
            now / 1000000000, opts.compressionType⟩, now + ro.hardTimeout⟩ := by
      rw [mSetRedisCache_ok_at opts hro, hkv]
      simp
    have hlook : redisLookup ((mSetRedisCache opts true st.redis now kvs
        []).1) now (mkRedisKey opts k)
        = some (Blob.bytesOf ⟨compress opts.compressionType v,
            now / 1000000000, opts.compressionType⟩) := by
      unfold redisLookup
      rw [hredis]
      have : now < now + ro.hardTimeout := by omega
      simp [this]
    have hdz : (⟨compress opts.compressionType v, now / 1000000000,
        opts.compressionType⟩ : Data) ≠ zeroData := by
      intro hcon
      have hmt : now / 1000000000 = (0 : Int) :=
        congrArg Data.modifyTime hcon
      omega
    have hfresh : redisFreshAt opts ro
        ((mSetRedisCache opts true st.redis now kvs []).1) now k
        ⟨compress opts.compressionType v, now / 1000000000,
          opts.compressionType⟩ := by
      refine ⟨hlook, hdz, ?_⟩
      simpa using hsoft
    have hwrap1 : mGetFromLRUCache opts (mSetLRUCache opts st.lru now kvs [])
        now [k] (fun _ => Option.none) (fun _ => false)
        = ((fun _ => Option.none), (fun _ => false), [k]) := by
      simp [mGetFromLRUCache, hlno]
    have h1 : (mGetFromLRUCache opts (mSetLRUCache opts st.lru now kvs [])
        now [k] (fun _ => Option.none) (fun _ => false)).2.2 ≠ [] := by
      rw [hwrap1]
      simp
    have hstate : ((⟨mSetLRUCache opts st.lru now kvs [],
        (mSetRedisCache opts true st.redis now kvs []).1⟩ : CacheState)).redis
        = (mSetRedisCache opts true st.redis now kvs []).1 := rfl
    rw [MGet_eq_remote opts env _ now [k] hkeys h1, mgetRemotePass_eq]
    rw [hwrap1]
    simp only
    have hwrap2 : mGetFromRedisCache opts
        ((mSetRedisCache opts true st.redis now kvs []).1) now [k]
        (fun _ => Option.none) (fun _ => false)
        = mGetRedisGo opts ro ((mSetRedisCache opts true st.redis now kvs
            []).1) now [k] (fun _ => Option.none) (fun _ => false) := by
      simp [mGetFromRedisCache, hro]
    have hmem := mGetRedisGo_fresh_mem opts ro
      ((mSetRedisCache opts true st.redis now kvs []).1) now hfresh [k]
      (fun _ => Option.none) (fun _ => false) (by simp)
    have hnot := mGetRedisGo_fresh_not_miss opts ro
      ((mSetRedisCache opts true st.redis now kvs []).1) now hfresh [k]
      (fun _ => Option.none) (fun _ => false)
    have hnil2 : (mGetFromRedisCache opts
        ((mSetRedisCache opts true st.redis now kvs []).1) now [k]
        (fun _ => Option.none) (fun _ => false)).2.2 = [] := by
      rw [hwrap2]
      refine List.eq_nil_iff_forall_not_mem.mpr (fun x hx => ?_)
      have hxk := mGetRedisGo_miss_sub opts ro _ now [k]
        (fun _ => Option.none) (fun _ => false) x hx
      obtain rfl : x = k := by simpa using hxk
      exact hnot hx
    rw [hnil2, mgetLoaderFill_nil]
    simp only
    rw [hwrap2]
    have hval : decompressOrNil
        (⟨compress opts.compressionType v, now / 1000000000,
          opts.compressionType⟩ : Data).compressionType
        (⟨compress opts.compressionType v, now / 1000000000,
          opts.compressionType⟩ : Data).raw = v := by
      simpa using compress_roundtrip hct v
    constructor
    · rw [hmem.1, hval]
    · exact hmem.2

theorem c7_witness :
    lookupLastKv [("a", [3])] "a" = some [3] ∧
    (optsRemoteNL.compressionType = CompressionType.none ∨
      optsRemoteNL.compressionType = CompressionType.snappy) ∧
    (1000000000 : Int) ≤ nowW ∧
    (optsRemoteNL.lruCacheOptions = Option.none ∧
      envNone.redisSetOk = true ∧
      ∃ ro, optsRemoteNL.redisCacheOptions = some ro ∧ 0 < ro.hardTimeout ∧
        nowW - nowW / 1000000000 * 1000000000 ≤ ro.softTimeout) ∧
    ((MGet optsRemoteNL envNone (MSet optsRemoteNL envNone.redisSetOk stEmpty
        nowW [("a", [3])]).1 nowW ["a"]).values "a" = some [3] ∧
     (MGet optsRemoteNL envNone (MSet optsRemoteNL envNone.redisSetOk stEmpty
        nowW [("a", [3])]).1 nowW ["a"]).valids "a" = true) := by
  have h := mset_mget_roundtrip optsRemoteNL envNone stEmpty nowW
    [("a", [3])] "a" [3] (by decide) (Or.inr rfl) (by decide)
    (Or.inr ⟨rfl, rfl, roW, rfl, by decide, by decide⟩)
  exact ⟨by decide, Or.inr rfl, by decide,
    ⟨rfl, rfl, roW, rfl, by decide, by decide⟩, h⟩

theorem lruMissAt_mono {lru : String → Option LruItem} {now1 now2 : Int}
    {K : String} (h : lruMissAt lru now1 K) (hm : now1 ≤ now2) :
    lruMissAt lru now2 K := by
  rcases h with h | ⟨item, hi, hc | ⟨hmk, he⟩⟩
  · exact Or.inl h
  · exact Or.inr ⟨item, hi, Or.inl hc⟩
  · refine Or.inr ⟨item, hi, Or.inr ⟨hmk, ?_⟩⟩
    simp only [LruItem.expired, decide_eq_true_eq] at he ⊢
    omega

theorem lruStaleAt_mono {lru : String → Option LruItem} {now1 now2 : Int}
    {K : String} {d : Data} (h : lruStaleAt lru now1 K d) (hm : now1 ≤ now2) :
    lruStaleAt lru now2 K d := by
  obtain ⟨item, hi, hv, hz, he⟩ := h
  refine ⟨item, hi, hv, hz, ?_⟩
  simp only [LruItem.expired, decide_eq_true_eq] at he ⊢
  omega

theorem MGet_loaderKeys_spec (opts : Options) (env : Env) (st : CacheState)
    (now : Int) (keys : List String) {K : String}
    (hK : K ∈ (MGet opts env st now keys).loaderKeys) :
    keys ≠ [] ∧
    (mGetFromLRUCache opts st.lru now keys (fun _ => Option.none)
      (fun _ => false)).2.2 ≠ [] ∧
    opts.loaderPresent = true ∧
    (MGet opts env st now keys).loaderKeys
      = (mGetFromRedisCache opts st.redis now
          (mGetFromLRUCache opts st.lru now keys (fun _ => Option.none)
            (fun _ => false)).2.2
          (mGetFromLRUCache opts st.lru now keys (fun _ => Option.none)
            (fun _ => false)).1
          (mGetFromLRUCache opts st.lru now keys (fun _ => Option.none)
            (fun _ => false)).2.1).2.2 := by
  by_cases hkeys : keys = []
  · exfalso
    unfold MGet at hK
    rw [if_pos hkeys] at hK
    simp at hK
  · by_cases h1 : (mGetFromLRUCache opts st.lru now keys (fun _ => Option.none)
        (fun _ => false)).2.2 = []
    · exfalso
      unfold MGet at hK
      rw [if_neg hkeys] at hK
      simp only [h1, if_pos] at hK
      simp at hK
    · rw [MGet_eq_remote opts env st now keys hkeys h1, mgetRemotePass_eq] at hK ⊢
      by_cases hm : (mGetFromRedisCache opts st.redis now
          (mGetFromLRUCache opts st.lru now keys (fun _ => Option.none)
            (fun _ => false)).2.2
          (mGetFromLRUCache opts st.lru now keys (fun _ => Option.none)
            (fun _ => false)).1
          (mGetFromLRUCache opts st.lru now keys (fun _ => Option.none)
            (fun _ => false)).2.1).2.2 = []
      · exfalso
        rw [hm, mgetLoaderFill_nil] at hK
        simp at hK
      · cases hlp : opts.loaderPresent with
        | false =>
          exfalso
          unfold mgetLoaderFill at hK
          rw [if_neg hm] at hK
          simp only [hlp, if_pos] at hK
          simp at hK
        | true =>
          exact ⟨hkeys, h1, rfl,
            (mgetLoaderFill_loader opts env _ now _ _ _ _ hlp hm).1⟩

/-- When a key is negatively cached — an unexpired local miss marker, or a
remote miss marker reached through a local miss/stale-candidate pass — the
loader is not invoked for it and no valid=true entry is produced; the value
entry is absent unless an expired local record contributes its stale
candidate. -/
theorem MGet_marker_terminal (opts : Options) (env : Env) (st : CacheState)
    (now : Int) (keys : List String) (K : String)
    (hpl : properLoader env) (hK : K ∈ keys)
    (hcase :
      ((∃ lo, opts.lruCacheOptions = some lo) ∧
        lruMarkerFreshAt st.lru now K) ∨
      ((opts.lruCacheOptions = Option.none ∨ lruMissAt st.lru now K ∨
          ∃ d, lruStaleAt st.lru now K d) ∧
        (∃ ro, opts.redisCacheOptions = some ro) ∧
        redisMarkerAt opts st.redis now K)) :
    K ∉ (MGet opts env st now keys).loaderKeys ∧
    (MGet opts env st now keys).valids K = false ∧
    ((MGet opts env st now keys).values K = Option.none ∨
      ∃ d, lruStaleAt st.lru now K d ∧
        (MGet opts env st now keys).values K = some d.raw) := by
  have hkeys : keys ≠ [] := List.ne_nil_of_mem hK
  rcases hcase with ⟨⟨lo, hlo⟩, hmk⟩ | ⟨hloc, ⟨ro, hro⟩, hrm⟩
  · -- unexpired local miss marker: the key never leaves the local pass
    have hwrap : mGetFromLRUCache opts st.lru now keys (fun _ => Option.none)
        (fun _ => false)
        = mGetLRUGo st.lru now keys (fun _ => Option.none) (fun _ => false) := by
      simp [mGetFromLRUCache, hlo, hkeys]
    have hnm : K ∉ (mGetFromLRUCache opts st.lru now keys
        (fun _ => Option.none) (fun _ => false)).2.2 := by
      rw [hwrap]
      exact mGetLRUGo_markerFresh st.lru now hmk keys _ _
    obtain ⟨item, hi, hv, _⟩ := hmk
    have hnw := mGetLRUGo_noWrite st.lru now
      (Or.inr ⟨item, hi, Or.inr hv⟩ : lruNoWriteAt st.lru K) keys
      (fun _ => Option.none) (fun _ => false)
    have hskip := MGet_skip opts env st now keys hkeys hpl hnm
    refine ⟨hskip.2.2.2, ?_, Or.inl ?_⟩
    · rw [hskip.2.1, hwrap]
      exact hnw.2
    · rw [hskip.1, hwrap]
      exact hnw.1
  · -- the key is carried to the remote pass and meets the remote miss marker
    have hT1 : K ∈ (mGetFromLRUCache opts st.lru now keys
        (fun _ => Option.none) (fun _ => false)).2.2 ∧
        (mGetFromLRUCache opts st.lru now keys (fun _ => Option.none)
          (fun _ => false)).2.1 K = false ∧
        ((mGetFromLRUCache opts st.lru now keys (fun _ => Option.none)
            (fun _ => false)).1 K = Option.none ∨
          ∃ d, lruStaleAt st.lru now K d ∧
            (mGetFromLRUCache opts st.lru now keys (fun _ => Option.none)
              (fun _ => false)).1 K = some d.raw) := by
      cases hlo2 : opts.lruCacheOptions with
      | none =>
        simp [mGetFromLRUCache, hlo2, hK]
      | some lo =>
        have hwrap : mGetFromLRUCache opts st.lru now keys
            (fun _ => Option.none) (fun _ => false)
            = mGetLRUGo st.lru now keys (fun _ => Option.none)
                (fun _ => false) := by
          simp [mGetFromLRUCache, hlo2, hkeys]
        rcases hloc with hnone | hmiss | ⟨d, hstale⟩
        · exact absurd (hlo2 ▸ hnone) (by simp)
        · have hnw := mGetLRUGo_noWrite st.lru now
            (by rcases hmiss with h | ⟨item, hi, hc | ⟨hm2, _⟩⟩
                · exact Or.inl h
                · exact Or.inr ⟨item, hi, Or.inl hc⟩
                · exact Or.inr ⟨item, hi, Or.inr hm2⟩ :
              lruNoWriteAt st.lru K) keys (fun _ => Option.none)
            (fun _ => false)
          have hmem := mGetLRUGo_miss_mem st.lru now hmiss keys
            (fun _ => Option.none) (fun _ => false) hK
          rw [hwrap]
          exact ⟨hmem, hnw.2, Or.inl hnw.1⟩
        · have hs := mGetLRUGo_stale_mem st.lru now hstale keys
            (fun _ => Option.none) (fun _ => false) hK
          rw [hwrap]
          exact ⟨hs.2.2, hs.2.1, Or.inr ⟨d, hstale, hs.1⟩⟩
    have h1 : (mGetFromLRUCache opts st.lru now keys (fun _ => Option.none)
        (fun _ => false)).2.2 ≠ [] := List.ne_nil_of_mem hT1.1
    rw [MGet_eq_remote opts env st now keys hkeys h1, mgetRemotePass_eq]
    have hwrap2 : mGetFromRedisCache opts st.redis now
        (mGetFromLRUCache opts st.lru now keys (fun _ => Option.none)
          (fun _ => false)).2.2
        (mGetFromLRUCache opts st.lru now keys (fun _ => Option.none)
          (fun _ => false)).1
        (mGetFromLRUCache opts st.lru now keys (fun _ => Option.none)
          (fun _ => false)).2.1
        = mGetRedisGo opts ro st.redis now
            (mGetFromLRUCache opts st.lru now keys (fun _ => Option.none)
              (fun _ => false)).2.2
            (mGetFromLRUCache opts st.lru now keys (fun _ => Option.none)
              (fun _ => false)).1
            (mGetFromLRUCache opts st.lru now keys (fun _ => Option.none)
              (fun _ => false)).2.1 := by
      simp [mGetFromRedisCache, hro, h1]
    have hmarker := mGetRedisGo_marker opts ro st.redis now hrm
      (mGetFromLRUCache opts st.lru now keys (fun _ => Option.none)
        (fun _ => false)).2.2
      (mGetFromLRUCache opts st.lru now keys (fun _ => Option.none)
        (fun _ => false)).1
      (mGetFromLRUCache opts st.lru now keys (fun _ => Option.none)
        (fun _ => false)).2.1
    have hnm2 : K ∉ (mGetFromRedisCache opts st.redis now
        (mGetFromLRUCache opts st.lru now keys (fun _ => Option.none)
          (fun _ => false)).2.2
        (mGetFromLRUCache opts st.lru now keys (fun _ => Option.none)
          (fun _ => false)).1
        (mGetFromLRUCache opts st.lru now keys (fun _ => Option.none)
          (fun _ => false)).2.1).2.2 := by
      rw [hwrap2]
      exact hmarker.2.2
    refine ⟨(mgetLoaderFill_skip opts env _ now _ _ _ _ hpl hnm2).2.2.1,
      ?_, ?_⟩
    · rw [(mgetLoaderFill_skip opts env _ now _ _ _ _ hpl hnm2).2.1, hwrap2,
        hmarker.2.1]
      exact hT1.2.1
    · rcases hT1.2.2 with hv | ⟨d, hstale, hv⟩
      · refine Or.inl ?_
        rw [(mgetLoaderFill_skip opts env _ now _ _ _ _ hpl hnm2).1, hwrap2,
          hmarker.1]
        exact hv
      · refine Or.inr ⟨d, hstale, ?_⟩
        rw [(mgetLoaderFill_skip opts env _ now _ _ _ _ hpl hnm2).1, hwrap2,
          hmarker.1]
        exact hv

theorem lruMissAt_congr {lru1 lru2 : String → Option LruItem} {now : Int}
    {K : String} (he : lru1 K = lru2 K) (h : lruMissAt lru1 now K) :
    lruMissAt lru2 now K := by
  rcases h with h | ⟨item, hi, hc⟩
  · exact Or.inl (he ▸ h)
  · exact Or.inr ⟨item, he ▸ hi, hc⟩

theorem lruStaleAt_congr {lru1 lru2 : String → Option LruItem} {now : Int}
    {K : String} {d : Data} (he : lru1 K = lru2 K)
    (h : lruStaleAt lru1 now K d) : lruStaleAt lru2 now K d := by
  obtain ⟨item, hi, hv, hz, hex⟩ := h
  exact ⟨item, he ▸ hi, hv, hz, hex⟩

/-- C4 counterexample: local tier with negative caching disabled
(`MissTimeout = 0`), remote miss TTL 100ms; key "a" holds an expired local
record with raw `[5]`.  The first `MGet` consults the loader for "a", the
loader confirms the miss, and the remote miss marker is written.  A second
`MGet` 50ms later (inside the negative-cache window) does not invoke the
loader and returns no valid=true entry — but it *does* return a value for
"a": the surviving expired local record's stale candidate `[5]`, which the
claim says must not be returned. -/
theorem c4_cex :
    (MGet optsNoNeg envNone stStaleW 1000000000 ["a"]).loaderKeys = ["a"] ∧
    (envNone.loader ["a"]).values "a" = Option.none ∧
    (envNone.loader ["a"]).err = false ∧
    millisecond ≤ roW.missTimeout ∧
    (1050000000 : Int) < 1000000000 + roW.missTimeout ∧
    (MGet optsNoNeg envNone (MGet optsNoNeg envNone stStaleW 1000000000
      ["a"]).state 1050000000 ["a"]).loaderKeys = [] ∧
    (MGet optsNoNeg envNone (MGet optsNoNeg envNone stStaleW 1000000000
      ["a"]).state 1050000000 ["a"]).valids "a" = false ∧
    (MGet optsNoNeg envNone (MGet optsNoNeg envNone stStaleW 1000000000
      ["a"]).state 1050000000 ["a"]).values "a" = some [5] := by
  refine ⟨by decide, rfl, rfl, by decide, by decide, by decide, by decide,
    by decide⟩

/-- C4 amended: after an `MGet` in which the loader was consulted for `K`
and returned no entry (loader succeeded, write-back succeeded), a
subsequent `MGet` for `K` within the applicable negative-cache window
(local: `negativeTTL ≠ 0` and `now2 ≤ now1 + negativeTTL`; remote:
`missTTL ≥ 1ms` and `now2 < now1 + missTTL`) does not invoke the loader for
`K` and returns no valid=true entry for `K`; it returns no value for `K`
except that an expired local record surviving in the local tier (possible
when local negative caching is disabled) still contributes its stale
candidate value, marked invalid. -/
theorem mget_negative_caching (opts : Options) (env1 env2 : Env)
    (st : CacheState) (now1 now2 : Int) (keys1 keys2 : List String)
    (K : String)
    (hpl2 : properLoader env2)
    (hmono : now1 ≤ now2)
    (hK1 : K ∈ (MGet opts env1 st now1 keys1).loaderKeys)
    (hmiss : ∀ ks, ((env1.loader ks).values K) = Option.none)
    (herr : ∀ ks, (env1.loader ks).err = false)
    (hok1 : env1.redisSetOk = true)
    (hK2 : K ∈ keys2)
    (hwin : (∃ lo, opts.lruCacheOptions = some lo ∧ lo.missTimeout ≠ 0 ∧
        now2 ≤ now1 + lo.missTimeout) ∨
      (∃ ro, opts.redisCacheOptions = some ro ∧
        millisecond ≤ ro.missTimeout ∧ now2 < now1 + ro.missTimeout)) :
    K ∉ (MGet opts env2 (MGet opts env1 st now1 keys1).state now2
        keys2).loaderKeys ∧
    (MGet opts env2 (MGet opts env1 st now1 keys1).state now2 keys2).valids K
      = false ∧
    ((MGet opts env2 (MGet opts env1 st now1 keys1).state now2 keys2).values K
        = Option.none ∨
      ∃ d, lruStaleAt (MGet opts env1 st now1 keys1).state.lru now2 K d ∧
        (MGet opts env2 (MGet opts env1 st now1 keys1).state now2
          keys2).values K = some d.raw) := by
  obtain ⟨hkeys1, h11, hlp, hlk⟩ :=
    MGet_loaderKeys_spec opts env1 st now1 keys1 hK1
  set S := (MGet opts env1 st now1 keys1).state with hS
  set F := mGetFromLRUCache opts st.lru now1 keys1 (fun _ => Option.none)
    (fun _ => false) with hF
  set R := mGetFromRedisCache opts st.redis now1 F.2.2 F.1 F.2.1 with hR
  have hKr : K ∈ R.2.2 := by rw [hlk] at hK1; exact hK1
  have hKmiss : K ∈ R.2.2.filter
      (fun q => ((env1.loader R.2.2).values q).isNone) :=
    List.mem_filter.mpr ⟨hKr, by simp [hmiss _]⟩
  have hKVSK : lookupLastKv ((env1.loader R.2.2).dom.filterMap
      (fun q => ((env1.loader R.2.2).values q).map (fun v => (q, v)))) K
      = Option.none :=
    lookupLastKv_filterMap_none _ (hmiss _) _
  have hset : ¬(((env1.loader R.2.2).dom.filterMap
      (fun q => ((env1.loader R.2.2).values q).map (fun v => (q, v)))) = [] ∧
      R.2.2.filter (fun q => ((env1.loader R.2.2).values q).isNone) = []) := by
    intro hcon
    rw [hcon.2] at hKmiss
    exact List.not_mem_nil K hKmiss
  have hwarm := warmState_at opts st now1 R.1 F.2.2 R.2.2 hKr
  have hstEq : S
      = (mSet opts env1.redisSetOk
          (if substract F.2.2 R.2.2 = [] then st
           else ⟨mSetLRUCache opts st.lru now1
              ((substract F.2.2 R.2.2).filterMap
                (fun q => (R.1 q).map (fun v => (q, v))))
              ((substract F.2.2 R.2.2).filter (fun q => (R.1 q).isNone)),
              st.redis⟩)
          now1
          ((env1.loader R.2.2).dom.filterMap
            (fun q => ((env1.loader R.2.2).values q).map (fun v => (q, v))))
          (R.2.2.filter
            (fun q => ((env1.loader R.2.2).values q).isNone))).1 := by
    rw [hS, MGet_eq_remote opts env1 st now1 keys1 hkeys1 h11,
      mgetRemotePass_eq]
    rw [(mgetLoaderFill_loader opts env1 _ now1 _ _ _ _ hlp
      (List.ne_nil_of_mem hKr)).2.2.2.2]
    rw [herr _]
    simp only [Bool.false_eq_true, if_false]
  have hlruEq : S.lru K
      = mSetLRUCache opts
          (if substract F.2.2 R.2.2 = [] then st
           else ⟨mSetLRUCache opts st.lru now1
              ((substract F.2.2 R.2.2).filterMap
                (fun q => (R.1 q).map (fun v => (q, v))))
              ((substract F.2.2 R.2.2).filter (fun q => (R.1 q).isNone)),
              st.redis⟩ : CacheState).lru now1
          ((env1.loader R.2.2).dom.filterMap
            (fun q => ((env1.loader R.2.2).values q).map (fun v => (q, v))))
          (R.2.2.filter
            (fun q => ((env1.loader R.2.2).values q).isNone)) K := by
    rw [hstEq, mSet_nonempty _ _ _ _ _ _ hset]
  have hredisEq : S.redis
      = (mSetRedisCache opts env1.redisSetOk st.redis now1
          ((env1.loader R.2.2).dom.filterMap
            (fun q => ((env1.loader R.2.2).values q).map (fun v => (q, v))))
          (R.2.2.filter
            (fun q => ((env1.loader R.2.2).values q).isNone))).1 := by
    rw [hstEq, mSet_nonempty _ _ _ _ _ _ hset]
    simp only
    rw [hwarm.2]
  rcases hwin with ⟨lo, hlo, hm0, hw⟩ | ⟨ro, hro, hms, hw⟩
  · -- local negative-cache window: the write-back put a fresh miss marker
    have hSK : S.lru K
        = some ⟨Blob.bytesOf zeroData, now1 + lo.missTimeout⟩ := by
      rw [hlruEq, mSetLRUCache_at opts hlo]
      simp [hm0, hKmiss]
    have hexp : (⟨Blob.bytesOf zeroData, now1 + lo.missTimeout⟩ :
        LruItem).expired now2 = false := by
      simp only [LruItem.expired, decide_eq_false_iff_not, not_lt]
      omega
    exact MGet_marker_terminal opts env2 S now2 keys2 K hpl2 hK2
      (Or.inl ⟨⟨lo, hlo⟩, ⟨_, hSK, rfl, hexp⟩⟩)
  · -- remote negative-cache window: the remote miss marker is visible
    have hrmark : redisMarkerAt opts S.redis now2 K := by
      unfold redisMarkerAt redisLookup
      rw [hredisEq, hok1, mSetRedisCache_ok_at opts hro]
      simp only [hms, hKmiss, true_and, if_pos, and_self]
      simp [hw]
    cases hlo2 : opts.lruCacheOptions with
    | none =>
      exact MGet_marker_terminal opts env2 S now2 keys2 K hpl2 hK2
        (Or.inr ⟨Or.inl hlo2, ⟨ro, hro⟩, hrmark⟩)
    | some lo =>
      have hKr2 : K ∈ (mGetFromRedisCache opts st.redis now1 F.2.2 F.1
          F.2.1).2.2 := by rw [← hR]; exact hKr
      have hKf : K ∈ F.2.2 :=
        mGetFromRedisCache_miss_sub opts st.redis now1 F.2.2 F.1 F.2.1 hKr2
      have hclass : lruMissAt st.lru now1 K ∨
          ∃ d, lruStaleAt st.lru now1 K d := by
        have hwrap : F = mGetLRUGo st.lru now1 keys1 (fun _ => Option.none)
            (fun _ => false) := by
          rw [hF]
          simp [mGetFromLRUCache, hlo2, hkeys1]
        rw [hwrap] at hKf
        exact mGetLRUGo_miss_class st.lru now1 keys1 _ _ K hKf
      by_cases hm0 : lo.missTimeout = 0
      · -- no local marker written: the old local entry survives
        have hSK : S.lru K = st.lru K := by
          rw [hlruEq, mSetLRUCache_at opts hlo2, hKVSK]
          simp only [hm0, ne_eq, not_true_eq_false, false_and, if_false]
          exact hwarm.1
        rcases hclass with h | ⟨d, h⟩
        · exact MGet_marker_terminal opts env2 S now2 keys2 K hpl2 hK2
            (Or.inr ⟨Or.inr (Or.inl
              (lruMissAt_congr hSK.symm (lruMissAt_mono h hmono))),
              ⟨ro, hro⟩, hrmark⟩)
        · exact MGet_marker_terminal opts env2 S now2 keys2 K hpl2 hK2
            (Or.inr ⟨Or.inr (Or.inr
              ⟨d, lruStaleAt_congr hSK.symm (lruStaleAt_mono h hmono)⟩),
              ⟨ro, hro⟩, hrmark⟩)
      · -- a local marker was written; it is either still fresh or expired
        have hSK : S.lru K
            = some ⟨Blob.bytesOf zeroData, now1 + lo.missTimeout⟩ := by
          rw [hlruEq, mSetLRUCache_at opts hlo2]
          simp [hm0, hKmiss]
        by_cases hw2 : now2 ≤ now1 + lo.missTimeout
        · have hexp : (⟨Blob.bytesOf zeroData, now1 + lo.missTimeout⟩ :
              LruItem).expired now2 = false := by
            simp only [LruItem.expired, decide_eq_false_iff_not, not_lt]
            omega
          exact MGet_marker_terminal opts env2 S now2 keys2 K hpl2 hK2
            (Or.inl ⟨⟨lo, hlo2⟩, ⟨_, hSK, rfl, hexp⟩⟩)
        · have hexp : (⟨Blob.bytesOf zeroData, now1 + lo.missTimeout⟩ :
              LruItem).expired now2 = true := by
            simp only [LruItem.expired, decide_eq_true_eq]
            omega
          exact MGet_marker_terminal opts env2 S now2 keys2 K hpl2 hK2
            (Or.inr ⟨Or.inr (Or.inl
              (Or.inr ⟨_, hSK, Or.inr ⟨rfl, hexp⟩⟩)),
              ⟨ro, hro⟩, hrmark⟩)

theorem c4_witness :
    properLoader envNone ∧
    (1000000000 : Int) ≤ 1050000000 ∧
    "a" ∈ (MGet optsLRW envNone stStaleW 1000000000 ["a"]).loaderKeys ∧
    (∀ ks, ((envNone.loader ks).values "a") = Option.none) ∧
    (∀ ks, (envNone.loader ks).err = false) ∧
    envNone.redisSetOk = true ∧
    "a" ∈ ["a"] ∧
    (∃ lo, optsLRW.lruCacheOptions = some lo ∧ lo.missTimeout ≠ 0 ∧
      (1050000000 : Int) ≤ 1000000000 + lo.missTimeout) ∧
    ("a" ∉ (MGet optsLRW envNone (MGet optsLRW envNone stStaleW 1000000000
        ["a"]).state 1050000000 ["a"]).loaderKeys ∧
     (MGet optsLRW envNone (MGet optsLRW envNone stStaleW 1000000000
        ["a"]).state 1050000000 ["a"]).valids "a" = false ∧
     ((MGet optsLRW envNone (MGet optsLRW envNone stStaleW 1000000000
        ["a"]).state 1050000000 ["a"]).values "a" = Option.none ∨
      ∃ d, lruStaleAt (MGet optsLRW envNone stStaleW 1000000000
          ["a"]).state.lru 1050000000 "a" d ∧
        (MGet optsLRW envNone (MGet optsLRW envNone stStaleW 1000000000
          ["a"]).state 1050000000 ["a"]).values "a" = some d.raw)) := by
  have hpl : properLoader envNone := fun ks k h => rfl
  have h := mget_negative_caching optsLRW envNone envNone stStaleW
    1000000000 1050000000 ["a"] ["a"] "a" hpl (by decide) (by decide)
    (fun ks => rfl) (fun ks => rfl) rfl (by decide)
    (Or.inl ⟨loW, rfl, by decide, by decide⟩)
  exact ⟨hpl, by decide, by decide, fun ks => rfl, fun ks => rfl, rfl,
    by decide, ⟨loW, rfl, by decide, by decide⟩, h⟩

end Levelcache
